import Mathlib

/-!
# Verification of the dbslice engine specification

This file gives a shallow embedding, in Lean 4, of the parts of the dbslice
code base that the specification's claims are about, and settles each claim
against that embedding.

Components embedded here:
* the promoter (`swap_schemas` / `unswap_schemas` from `dbutil/ddl.py`),
* the precopy stage (`migrate_precopy` from `migrate.py`),
* the selection resolver (`_values_sql`, `_select_ids`, `build_selections`
  from `engine/selections.py`),
* the redaction pass (`neuter_data` from `dbutil/neuter.py`),
* the table-group builder's skip / distinct logic (`run_families` from
  `engine/families.py`),
* the constraint reconciler (`mirror_all_constraints` from
  `dbutil/constraints.py`).

The database server is modelled semantically: a schema layout is an
association list from schema name to contents, a table is a list of rows,
and each SQL statement issued by the code is translated to its effect on
that state.  Python dictionaries become association lists, Python exceptions
become `Except`, and the concurrency used by the code (bounded task fan-out
over *disjoint* tables or shards) is modelled by the equivalent sequential
fold, which is justified by the code's own invariant that no two tasks write
the same destination table.
-/

namespace Dbslice

/-! ## Association-list helpers

Schema layouts, tables and constraint maps are modelled as association
lists; `alookup` (first binding wins) models a catalog lookup or a Python
dict access. -/

def alookup {α : Type} (st : List (String × α)) (k : String) : Option α :=
  match st with
  | [] => none
  | (k', v) :: rest => if k' = k then some v else alookup rest k

/-- `ALTER SCHEMA old RENAME TO new` re-labels every binding keyed `old`. -/
def renameKeys {α : Type} (st : List (String × α)) (old new : String) :
    List (String × α) :=
  st.map (fun p => (if p.1 = old then new else p.1, p.2))

theorem alookup_renameKeys_tgt {α : Type} (st : List (String × α))
    (old new : String) (h : alookup st new = none) :
    alookup (renameKeys st old new) new = alookup st old := by
  induction st with
  | nil => rfl
  | cons p rest ih =>
      obtain ⟨k, v⟩ := p
      by_cases hk : k = old
      · subst hk
        have hne : ¬ (k = new) := by
          intro hkn
          rw [alookup, if_pos hkn] at h
          exact Option.some_ne_none v h
        simp [renameKeys, alookup, hne] at h ⊢
      · by_cases hkn : k = new
        · rw [alookup, if_pos hkn] at h
          exact absurd h (Option.some_ne_none v)
        · rw [alookup, if_neg hkn] at h
          simp [renameKeys, alookup, hk, hkn] at ih ⊢
          exact ih h

theorem alookup_renameKeys_src {α : Type} (st : List (String × α))
    (old new : String) (hne : old ≠ new) :
    alookup (renameKeys st old new) old = none := by
  induction st with
  | nil => rfl
  | cons p rest ih =>
      obtain ⟨k, v⟩ := p
      by_cases hk : k = old
      · subst hk
        simp [renameKeys, alookup, Ne.symm hne] at ih ⊢
        exact ih
      · simp [renameKeys, alookup, hk] at ih ⊢
        exact ih

theorem alookup_renameKeys_other {α : Type} (st : List (String × α))
    (old new n : String) (h1 : n ≠ old) (h2 : n ≠ new) :
    alookup (renameKeys st old new) n = alookup st n := by
  induction st with
  | nil => rfl
  | cons p rest ih =>
      obtain ⟨k, v⟩ := p
      by_cases hk : k = old
      · subst hk
        simp [renameKeys, alookup, Ne.symm h2, Ne.symm h1] at ih ⊢
        exact ih
      · by_cases hkn : k = n
        · subst hkn
          simp [renameKeys, alookup, hk]
        · simp [renameKeys, alookup, hk, hkn] at ih ⊢
          exact ih

/-! ## Promoter (`dbutil/ddl.py`: `swap_schemas`, `unswap_schemas`)

A database is an association list from schema name to schema contents
(contents are opaque: renames move them untouched).  `renameSchema` models
`ALTER SCHEMA .. RENAME TO ..`: it fails when the source schema is absent or
the target name is taken, exactly as the server does.
`refresh_all_matviews` changes no schema layout and any failure in it is
rolled back and swallowed by the code, so it is the identity here. -/

def schemaExists {α : Type} (st : List (String × α)) (name : String) : Bool :=
  (alookup st name).isSome

def renameSchema {α : Type} (st : List (String × α)) (old new : String) :
    Except String (List (String × α)) :=
  if (alookup st old).isNone then .error "schema does not exist"
  else if (alookup st new).isSome then .error "schema already exists"
  else .ok (renameKeys st old new)

/-- `swap_schemas(conn, dest_schema, old_schema)` from `dbutil/ddl.py`:
require `dest_schema` present and `old_schema` absent, then rename
`public → old_schema` and `dest_schema → public`. -/
def swapSchemas {α : Type} (st : List (String × α))
    (destSchema oldSchema : String) : Except String (List (String × α)) :=
  if ¬ schemaExists st destSchema then
    .error "dest_schema does not exist; nothing to swap"
  else if schemaExists st oldSchema then
    .error "old schema already exists; aborting swap"
  else do
    let st1 ← renameSchema st "public" oldSchema
    renameSchema st1 destSchema "public"

/-- `unswap_schemas(conn, dest_schema, old_schema)` from `dbutil/ddl.py`:
require `old_schema` present and `dest_schema` absent, then rename
`public → dest_schema` and `old_schema → public`. -/
def unswapSchemas {α : Type} (st : List (String × α))
    (destSchema oldSchema : String) : Except String (List (String × α)) :=
  if ¬ schemaExists st oldSchema then
    .error "old schema does not exist; cannot unswap"
  else if schemaExists st destSchema then
    .error "dest_schema already exists; cannot unswap into existing schema"
  else do
    let st1 ← renameSchema st "public" destSchema
    renameSchema st1 oldSchema "public"

def exceptIsOk {ε α : Type} : Except ε α → Bool
  | .ok _ => true
  | .error _ => false

theorem renameSchema_ok {α : Type} (st : List (String × α)) (old new : String)
    (h1 : (alookup st old).isSome = true) (h2 : alookup st new = none) :
    renameSchema st old new = .ok (renameKeys st old new) := by
  obtain ⟨v, hv⟩ := Option.isSome_iff_exists.mp h1
  simp [renameSchema, hv, h2]

/-- **C8, counterexample.** With `dest_schema = 'public'` the stated
precondition holds (the public schema and the dest schema exist, `old` does
not), yet `swap_schemas` raises: after `public` is renamed to `old`, the
second rename finds no schema named `public` any more.  So the claim as
stated — "neither operation raises" — is false. -/
theorem swapUnswap_c8_counterexample :
    schemaExists [("public", 1)] "public" = true ∧
    schemaExists [("public", 1)] "public" = true ∧
    schemaExists [("public", 1)] "old" = false ∧
    exceptIsOk (swapSchemas [("public", 1)] "public" "old") = false := by
  decide

/-- **C8 (amended).** Given a state where the public schema and
`dest_schema` exist, the `old` schema does not, *and `dest_schema` is not
`public` itself*, `swap_schemas` followed by `unswap_schemas` succeeds and
restores the pre-swap layout exactly: every schema name maps to the same
contents as before (in particular `public` and `dest_schema` are present
with their original contents and `old` is absent). -/
theorem swapUnswap_c8_roundtrip {α : Type} (st : List (String × α))
    (dest : String) (hdp : dest ≠ "public")
    (hpub : schemaExists st "public" = true)
    (hdest : schemaExists st dest = true)
    (hold : schemaExists st "old" = false) :
    ∃ st1 st2, swapSchemas st dest "old" = .ok st1 ∧
      unswapSchemas st1 dest "old" = .ok st2 ∧
      ∀ n, alookup st2 n = alookup st n := by
  have hpo : ("public" : String) ≠ "old" := by decide
  have hop : ("old" : String) ≠ "public" := by decide
  have hpubS : (alookup st "public").isSome = true := hpub
  have hdestS : (alookup st dest).isSome = true := hdest
  have holdN : alookup st "old" = none := by
    simpa [schemaExists, Option.isSome_iff_exists] using hold
  have hdo : dest ≠ "old" := by
    intro h
    rw [h, holdN] at hdestS
    simp at hdestS
  have hod : ("old" : String) ≠ dest := Ne.symm hdo
  have hpd : ("public" : String) ≠ dest := Ne.symm hdp
  -- A := state after `ALTER SCHEMA public RENAME TO old`
  set A := renameKeys st "public" "old" with hA
  have hA_dest : alookup A dest = alookup st dest :=
    alookup_renameKeys_other st "public" "old" dest hdp hdo
  have hA_pub : alookup A "public" = none :=
    alookup_renameKeys_src st "public" "old" hpo
  have hA_old : alookup A "old" = alookup st "public" :=
    alookup_renameKeys_tgt st "public" "old" holdN
  -- B := state after the swap
  set B := renameKeys A dest "public" with hB
  have hB_old : alookup B "old" = alookup A "old" :=
    alookup_renameKeys_other A dest "public" "old" hod hop
  have hB_dest : alookup B dest = none :=
    alookup_renameKeys_src A dest "public" hdp
  have hB_pub : alookup B "public" = alookup A dest :=
    alookup_renameKeys_tgt A dest "public" hA_pub
  have r1 : renameSchema st "public" "old" = .ok A :=
    renameSchema_ok st "public" "old" hpubS holdN
  have r2 : renameSchema A dest "public" = .ok B :=
    renameSchema_ok A dest "public" (by rw [hA_dest]; exact hdestS) hA_pub
  have hswap : swapSchemas st dest "old" = .ok B := by
    simp [swapSchemas, hdest, hold, r1, r2, Bind.bind, Except.bind]
  -- C := state after `ALTER SCHEMA public RENAME TO dest` inside unswap
  set C := renameKeys B "public" dest with hC
  have hC_old : alookup C "old" = alookup B "old" :=
    alookup_renameKeys_other B "public" dest "old" hop hod
  have hC_pub : alookup C "public" = none :=
    alookup_renameKeys_src B "public" dest hpd
  have hC_dest : alookup C dest = alookup B "public" :=
    alookup_renameKeys_tgt B "public" dest hB_dest
  -- D := state after the unswap
  set D := renameKeys C "old" "public" with hD
  have hB_old_some : (alookup B "old").isSome = true := by
    rw [hB_old, hA_old]; exact hpubS
  have r3 : renameSchema B "public" dest = .ok C :=
    renameSchema_ok B "public" dest (by rw [hB_pub, hA_dest]; exact hdestS) hB_dest
  have r4 : renameSchema C "old" "public" = .ok D :=
    renameSchema_ok C "old" "public"
      (by rw [hC_old, hB_old, hA_old]; exact hpubS) hC_pub
  have hunswap : unswapSchemas B dest "old" = .ok D := by
    simp [unswapSchemas, schemaExists, hB_old_some, hB_dest, r3, r4,
      Bind.bind, Except.bind]
  refine ⟨B, D, hswap, hunswap, ?_⟩
  intro n
  by_cases hn1 : n = "public"
  · subst hn1
    have : alookup D "public" = alookup C "old" :=
      alookup_renameKeys_tgt C "old" "public" hC_pub
    rw [this, hC_old, hB_old, hA_old]
  · by_cases hn2 : n = dest
    · subst hn2
      have : alookup D n = alookup C n :=
        alookup_renameKeys_other C "old" "public" n hdo hdp
      rw [this, hC_dest, hB_pub, hA_dest]
    · by_cases hn3 : n = "old"
      · subst hn3
        have : alookup D "old" = none :=
          alookup_renameKeys_src C "old" "public" hop
        rw [this, holdN]
      · have h1 : alookup D n = alookup C n :=
          alookup_renameKeys_other C "old" "public" n hn3 hn1
        have h2 : alookup C n = alookup B n :=
          alookup_renameKeys_other B "public" dest n hn1 hn2
        have h3 : alookup B n = alookup A n :=
          alookup_renameKeys_other A dest "public" n hn2 hn1
        have h4 : alookup A n = alookup st n :=
          alookup_renameKeys_other st "public" "old" n hn1 hn3
        rw [h1, h2, h3, h4]

/-- **C8, witness.** The round-trip theorem applied to a concrete two-schema
layout. -/
theorem swapUnswap_c8_roundtrip_witness :
    ("stage" : String) ≠ "public" ∧
    schemaExists [("public", 1), ("stage", 2)] "public" = true ∧
    schemaExists [("public", 1), ("stage", 2)] "stage" = true ∧
    schemaExists [("public", 1), ("stage", 2)] "old" = false ∧
    (∃ st1 st2, swapSchemas [("public", 1), ("stage", 2)] "stage" "old" = .ok st1 ∧
      unswapSchemas st1 "stage" "old" = .ok st2 ∧
      ∀ n, alookup st2 n = alookup [("public", 1), ("stage", 2)] n) :=
  ⟨by decide, by decide, by decide, by decide,
    swapUnswap_c8_roundtrip [("public", 1), ("stage", 2)] "stage"
      (by decide) (by decide) (by decide) (by decide)⟩

/-! ## Precopy stage (`migrate.py`: `migrate_precopy`)

A table is modelled by its rows (opaque row type `ρ`), its
logged/unlogged persistence flag, and its primary key (constraint name and
column list).  A schema's tables form an association list; `aset` models
`CREATE TABLE` / per-table mutation (replace the first binding, or append).

`migrate_precopy` runs the `schema_only` list and then the `full_copy` list,
each with a bounded-concurrency task group over *per-table* connections; the
tasks of one group touch pairwise distinct destination tables (one table
each), so the group is modelled by the equivalent sequential fold.  Each
task's error is recorded and the first one re-raised after the group, which
`Except` models on the success path exactly. -/

structure TableSt (ρ : Type) where
  rows : List ρ
  unlogged : Bool
  pk : Option (String × List String)
  deriving DecidableEq, Repr

def aset {α : Type} (m : List (String × α)) (k : String) (v : α) :
    List (String × α) :=
  match m with
  | [] => [(k, v)]
  | (k', v') :: rest =>
      if k' = k then (k, v) :: rest else (k', v') :: aset rest k v

theorem alookup_aset_self {α : Type} (m : List (String × α)) (k : String)
    (v : α) : alookup (aset m k v) k = some v := by
  induction m with
  | nil => simp [aset, alookup]
  | cons p rest ih =>
      obtain ⟨k', v'⟩ := p
      by_cases hk : k' = k
      · simp [aset, hk, alookup]
      · simp [aset, hk, alookup, ih]

theorem alookup_aset_other {α : Type} (m : List (String × α)) (k n : String)
    (v : α) (hn : n ≠ k) : alookup (aset m k v) n = alookup m n := by
  induction m with
  | nil => simp [aset, alookup, Ne.symm hn]
  | cons p rest ih =>
      obtain ⟨k', v'⟩ := p
      by_cases hk : k' = k
      · subst hk
        simp [aset, alookup, Ne.symm hn]
      · by_cases hkn : k' = n
        · subst hkn
          simp [aset, hk, alookup]
        · simp [aset, hk, alookup, hkn, ih]

/-- `_schema_only(table)` from `migrate.py`: skip if the destination table
exists; otherwise `CREATE TABLE (LIKE src INCLUDING DEFAULTS)` (logged, no
rows) and attach the source primary key (the success path of the guarded
`_add_pk`; on failure the code rolls the PK back and keeps the table). -/
def schemaOnlyStep {ρ : Type} (src : List (String × TableSt ρ))
    (dst : List (String × TableSt ρ)) (t : String) :
    Except String (List (String × TableSt ρ)) :=
  if (alookup dst t).isSome then .ok dst
  else
    match alookup src t with
    | none => .error "source table missing"
    | some s => .ok (aset dst t ⟨[], false, s.pk⟩)

/-- `_full_copy(table)` from `migrate.py`: if the destination table exists
and is UNLOGGED, set it LOGGED and attach the source primary key when
missing; if it exists and is LOGGED, do nothing; otherwise create an
UNLOGGED clone, `INSERT .. SELECT *` every source row, set LOGGED, and
attach the source primary key. -/
def fullCopyStep {ρ : Type} (src : List (String × TableSt ρ))
    (dst : List (String × TableSt ρ)) (t : String) :
    Except String (List (String × TableSt ρ)) :=
  match alookup dst t with
  | some ts =>
      if ts.unlogged then
        let pk' := match ts.pk with
          | some p => some p
          | none =>
              match alookup src t with
              | some s => s.pk
              | none => none
        .ok (aset dst t ⟨ts.rows, false, pk'⟩)
      else .ok dst
  | none =>
      match alookup src t with
      | none => .error "source table missing"
      | some s => .ok (aset dst t ⟨s.rows, false, s.pk⟩)

/-- `migrate_precopy` from `migrate.py`: run the `schema_only` group, then
the `full_copy` group. -/
def migratePrecopy {ρ : Type} (soList fcList : List String)
    (src dst : List (String × TableSt ρ)) :
    Except String (List (String × TableSt ρ)) := do
  let d1 ← soList.foldlM (schemaOnlyStep src) dst
  fcList.foldlM (fullCopyStep src) d1

theorem schemaOnlyStep_frame {ρ : Type} (src d d' : List (String × TableSt ρ))
    (t' t : String) (hne : t' ≠ t)
    (h : schemaOnlyStep src d t' = .ok d') :
    alookup d' t = alookup d t := by
  unfold schemaOnlyStep at h
  by_cases he : (alookup d t').isSome
  · rw [if_pos he] at h
    cases h
    rfl
  · rw [if_neg he] at h
    cases hs : alookup src t' with
    | none => rw [hs] at h; cases h
    | some s =>
        rw [hs] at h
        cases h
        exact alookup_aset_other d t' t _ (Ne.symm hne)

theorem fullCopyStep_frame {ρ : Type} (src d d' : List (String × TableSt ρ))
    (t' t : String) (hne : t' ≠ t)
    (h : fullCopyStep src d t' = .ok d') :
    alookup d' t = alookup d t := by
  cases he : alookup d t' with
  | some ts =>
      simp only [fullCopyStep, he] at h
      by_cases hu : ts.unlogged = true
      · rw [if_pos hu] at h
        cases h
        exact alookup_aset_other d t' t _ (Ne.symm hne)
      · rw [if_neg hu] at h
        cases h
        rfl
  | none =>
      simp only [fullCopyStep, he] at h
      cases hs : alookup src t' with
      | none => rw [hs] at h; cases h
      | some s =>
          rw [hs] at h
          cases h
          exact alookup_aset_other d t' t _ (Ne.symm hne)

theorem soFold_frame {ρ : Type} (src : List (String × TableSt ρ))
    (l : List String) (t : String) (hnot : t ∉ l) :
    ∀ d d', l.foldlM (schemaOnlyStep src) d = .ok d' →
      alookup d' t = alookup d t := by
  induction l with
  | nil => intro d d' h; cases h; rfl
  | cons x xs ih =>
      intro d d' h
      have hx : x ≠ t := fun hh => hnot (hh ▸ List.mem_cons_self x xs)
      have hxs : t ∉ xs := fun hh => hnot (List.mem_cons_of_mem x hh)
      rw [List.foldlM_cons] at h
      cases hstep : schemaOnlyStep src d x with
      | error e => rw [hstep] at h; cases h
      | ok d1 =>
          rw [hstep] at h
          have h2 := ih hxs d1 d' h
          rw [h2, schemaOnlyStep_frame src d d1 x t hx hstep]

/-- The table value that `_full_copy` materialises for an absent table. -/
def copiedTable {ρ : Type} (s : TableSt ρ) : TableSt ρ :=
  ⟨s.rows, false, s.pk⟩

theorem fcFold_keeps {ρ : Type} (src : List (String × TableSt ρ))
    (t : String) (s : TableSt ρ) (hsrc : alookup src t = some s) :
    ∀ (l : List String) d d',
      alookup d t = some (copiedTable s) →
      l.foldlM (fullCopyStep src) d = .ok d' →
      alookup d' t = some (copiedTable s) := by
  intro l
  induction l with
  | nil => intro d d' hd h; cases h; exact hd
  | cons x xs ih =>
      intro d d' hd h
      rw [List.foldlM_cons] at h
      cases hstep : fullCopyStep src d x with
      | error e => rw [hstep] at h; cases h
      | ok d1 =>
          rw [hstep] at h
          by_cases hx : x = t
          · subst hx
            simp only [fullCopyStep, hd, copiedTable] at hstep
            rw [if_neg (by simp)] at hstep
            cases hstep
            exact ih d d' hd h
          · have := fullCopyStep_frame src d d1 x t hx hstep
            exact ih d1 d' (this ▸ hd) h

theorem fcFold_copies {ρ : Type} (src : List (String × TableSt ρ))
    (t : String) (s : TableSt ρ) (hsrc : alookup src t = some s) :
    ∀ (l : List String) d d',
      t ∈ l →
      alookup d t = none →
      l.foldlM (fullCopyStep src) d = .ok d' →
      alookup d' t = some (copiedTable s) := by
  intro l
  induction l with
  | nil => intro d d' hmem _ _; cases hmem
  | cons x xs ih =>
      intro d d' hmem hd h
      rw [List.foldlM_cons] at h
      cases hstep : fullCopyStep src d x with
      | error e => rw [hstep] at h; cases h
      | ok d1 =>
          rw [hstep] at h
          by_cases hx : x = t
          · subst hx
            simp only [fullCopyStep, hd, hsrc] at hstep
            cases hstep
            exact fcFold_keeps src x s hsrc xs _ d' (alookup_aset_self d x _) h
          · have hframe := fullCopyStep_frame src d d1 x t hx hstep
            have hmem' : t ∈ xs := by
              cases hmem with
              | head => exact absurd rfl hx
              | tail _ hm => exact hm
            exact ih d1 d' hmem' (hframe ▸ hd) h

theorem fcFold_src_exists {ρ : Type} (src : List (String × TableSt ρ))
    (t : String) :
    ∀ (l : List String) d d',
      t ∈ l →
      alookup d t = none →
      l.foldlM (fullCopyStep src) d = .ok d' →
      ∃ s, alookup src t = some s := by
  intro l
  induction l with
  | nil => intro d d' hmem _ _; cases hmem
  | cons x xs ih =>
      intro d d' hmem hd h
      rw [List.foldlM_cons] at h
      cases hstep : fullCopyStep src d x with
      | error e => rw [hstep] at h; cases h
      | ok d1 =>
          rw [hstep] at h
          by_cases hx : x = t
          · subst hx
            simp only [fullCopyStep, hd] at hstep
            cases hs : alookup src x with
            | none => rw [hs] at hstep; cases hstep
            | some s => exact ⟨s, rfl⟩
          · have hframe := fullCopyStep_frame src d d1 x t hx hstep
            have hmem' : t ∈ xs := by
              cases hmem with
              | head => exact absurd rfl hx
              | tail _ hm => exact hm
            exact ih d1 d' hmem' (hframe ▸ hd) h

/-- **C5, counterexample.** `migrate_precopy` only bulk-copies a `full_copy`
table when it is absent from the destination: a pre-existing (LOGGED)
destination table is left untouched, so the claimed row-multiset equality
fails.  Here `src.coupon` has two rows, a stale `dst.coupon` is empty, the
run succeeds, and the counts differ. -/
theorem precopy_c5_counterexample :
    migratePrecopy [] ["coupon"]
        [("coupon", (⟨[1, 2], false, none⟩ : TableSt Nat))]
        [("coupon", (⟨[], false, none⟩ : TableSt Nat))] =
      .ok [("coupon", (⟨[], false, none⟩ : TableSt Nat))] ∧
    ((⟨[], false, none⟩ : TableSt Nat)).rows.length ≠
      ((⟨[1, 2], false, none⟩ : TableSt Nat)).rows.length := by
  constructor
  · rfl
  · decide

/-- **C5 (amended).** For every table `T` in `precopy.full_copy` that does
not yet exist in the destination and is not also listed in
`precopy.schema_only`, after `migrate_precopy` completes successfully the
destination table exists and its rows are exactly the source rows (hence the
counts and the row multisets agree).  Pre-existing destination tables are
left with their old contents (only LOGGED persistence and a missing primary
key are repaired), which is why the claim's unconditional form fails. -/
theorem precopy_c5_fullcopy {ρ : Type} (soList fcList : List String)
    (src dst d' : List (String × TableSt ρ)) (t : String)
    (hmem : t ∈ fcList) (hnotso : t ∉ soList)
    (habsent : alookup dst t = none)
    (hrun : migratePrecopy soList fcList src dst = .ok d') :
    ∃ s : TableSt ρ, alookup src t = some s ∧
      alookup d' t = some (copiedTable s) ∧
      (copiedTable s).rows = s.rows := by
  unfold migratePrecopy at hrun
  cases hso : soList.foldlM (schemaOnlyStep src) dst with
  | error e =>
      rw [hso] at hrun
      cases hrun
  | ok d1 =>
      rw [hso] at hrun
      simp only [Bind.bind, Except.bind] at hrun
      have hd1 : alookup d1 t = none := by
        rw [soFold_frame src soList t hnotso dst d1 hso, habsent]
      obtain ⟨s, hs⟩ := fcFold_src_exists src t fcList d1 d' hmem hd1 hrun
      exact ⟨s, hs, fcFold_copies src t s hs fcList d1 d' hmem hd1 hrun, rfl⟩

/-- **C5, witness.** The amended full-copy theorem applied to the
scenario-1 shape: `full_copy=[coupon]`, `schema_only=[shipment]`, and a
destination that starts empty. -/
theorem precopy_c5_fullcopy_witness :
    ("coupon" : String) ∈ ["coupon"] ∧
    ("coupon" : String) ∉ ["shipment"] ∧
    alookup ([] : List (String × TableSt Nat)) "coupon" = none ∧
    migratePrecopy ["shipment"] ["coupon"]
        [("shipment", (⟨[], false, none⟩ : TableSt Nat)),
         ("coupon", (⟨[10, 20, 30], false, none⟩ : TableSt Nat))] [] =
      .ok [("shipment", (⟨[], false, none⟩ : TableSt Nat)),
           ("coupon", (⟨[10, 20, 30], false, none⟩ : TableSt Nat))] ∧
    (∃ s : TableSt Nat,
      alookup [("shipment", (⟨[], false, none⟩ : TableSt Nat)),
               ("coupon", (⟨[10, 20, 30], false, none⟩ : TableSt Nat))]
          "coupon" = some s ∧
      alookup [("shipment", (⟨[], false, none⟩ : TableSt Nat)),
               ("coupon", (⟨[10, 20, 30], false, none⟩ : TableSt Nat))]
          "coupon" = some (copiedTable s) ∧
      (copiedTable s).rows = s.rows) :=
  ⟨by decide, by decide, rfl, rfl,
    precopy_c5_fullcopy ["shipment"] ["coupon"]
      [("shipment", (⟨[], false, none⟩ : TableSt Nat)),
       ("coupon", (⟨[10, 20, 30], false, none⟩ : TableSt Nat))] []
      [("shipment", (⟨[], false, none⟩ : TableSt Nat)),
       ("coupon", (⟨[10, 20, 30], false, none⟩ : TableSt Nat))]
      "coupon" (by decide) (by decide) rfl rfl⟩

/-! ## Table-group builder (`engine/families.py`: `run_families`)

### Distinct post-processing (claim C6)

When a dependency requests `distinct`, `run_families` creates a temp table
`SELECT DISTINCT ON (pk_cols) d.* ... ORDER BY pk_cols` (or, when the source
table has no primary key, `DISTINCT ON (md5(to_jsonb(d)::text))`), truncates
the destination dep table and re-inserts the temp rows.  The net effect on
the dep table's rows is `distinctOn` with the corresponding key.  `DISTINCT
ON` keeps one arbitrary row per key group (the `ORDER BY` covers only the
key columns); we model the first-row choice, on which the claim does not
depend.  A row is a list of column/value pairs; `md5` is an arbitrary hash
parameter since it is computed by the server. -/

def NRow : Type := List (String × String)

def distinctOnAux {ρ κ : Type} [DecidableEq κ] (key : ρ → κ) :
    List κ → List ρ → List ρ
  | _, [] => []
  | seen, r :: rest =>
      if key r ∈ seen then distinctOnAux key seen rest
      else r :: distinctOnAux key (key r :: seen) rest

def distinctOn {ρ κ : Type} [DecidableEq κ] (key : ρ → κ) (rows : List ρ) :
    List ρ :=
  distinctOnAux key [] rows

/-- The three shapes of dedup query that could be emitted; `run_families`
never emits `plainDistinctStar` ("Avoid SELECT DISTINCT d.* because some
tables have json columns and json lacks an equality operator"). -/
inductive DedupSql where
  | distinctOnPk (cols : List String)
  | distinctOnJsonHash
  | plainDistinctStar
  deriving DecidableEq, Repr

/-- The dedup query `run_families` chooses, given `get_primary_key`'s
result for the source dep table. -/
def famDedupSql (pk : Option (String × List String)) : DedupSql :=
  match pk with
  | some (_, cols) => .distinctOnPk cols
  | none => .distinctOnJsonHash

/-- The net effect of the `distinct` post-processing on the destination dep
table's rows (temp `DISTINCT ON` snapshot, `TRUNCATE`, re-insert). -/
def famDistinct {κ : Type} [DecidableEq κ] (pk : Option (String × List String))
    (hash : NRow → κ) (rows : List NRow) : List NRow :=
  match pk with
  | some (_, cols) => distinctOn (fun r => cols.map (alookup r)) rows
  | none => distinctOn hash rows

theorem distinctOnAux_countP {ρ κ : Type} [DecidableEq κ] (key : ρ → κ)
    (k : κ) :
    ∀ (rows : List ρ) (seen : List κ),
      ((distinctOnAux key seen rows).countP (fun r => decide (key r = k))) =
        if k ∈ seen then 0 else if k ∈ rows.map key then 1 else 0 := by
  intro rows
  induction rows with
  | nil => intro seen; simp [distinctOnAux]
  | cons r rest ih =>
      intro seen
      by_cases hr : key r ∈ seen
      · rw [distinctOnAux, if_pos hr, ih seen]
        by_cases hks : k ∈ seen
        · simp [hks]
        · have hkr : ¬ k = key r := fun h => hks (h ▸ hr)
          simp [hks, List.mem_cons, hkr]
      · rw [distinctOnAux, if_neg hr]
        rw [List.countP_cons, ih (key r :: seen)]
        by_cases hkr : key r = k
        · subst hkr
          simp [hr, List.mem_cons]
        · have hkr' : ¬ k = key r := fun h => hkr h.symm
          by_cases hks : k ∈ seen
          · simp [hks, List.mem_cons, hkr', hkr]
          · simp [hks, List.mem_cons, hkr', hkr]

theorem distinctOn_countP {ρ κ : Type} [DecidableEq κ] (key : ρ → κ)
    (k : κ) (rows : List ρ) :
    ((distinctOn key rows).countP (fun r => decide (key r = k))) =
      if k ∈ rows.map key then 1 else 0 := by
  rw [distinctOn, distinctOnAux_countP key k rows []]
  simp

/-- **C6.** After `distinct` post-processing: (a) with a source primary key
on columns `K`, every `K`-tuple occurring in the dep table occurs exactly
once afterwards (and no other tuple occurs); (b) without a primary key, the
rows are deduplicated on a hash of the row's JSON form, so each hash value
occurring in the table occurs exactly once afterwards; (c) the dedup query
is never a plain `SELECT DISTINCT d.*`. -/
theorem famDistinct_c6 {κ : Type} [DecidableEq κ] (cname : String)
    (cols : List String) (hash : NRow → κ) (rows : List NRow) :
    (∀ k, ((famDistinct (some (cname, cols)) hash rows).countP
        (fun r => decide (cols.map (alookup r) = k))) =
      if k ∈ rows.map (fun r => cols.map (alookup r)) then 1 else 0) ∧
    (∀ hv, ((famDistinct none hash rows).countP
        (fun r => decide (hash r = hv))) =
      if hv ∈ rows.map hash then 1 else 0) ∧
    (∀ pk, famDedupSql pk ≠ DedupSql.plainDistinctStar) := by
  refine ⟨fun k => ?_, fun hv => ?_, fun pk => ?_⟩
  · have := distinctOn_countP (fun r => cols.map (alookup r)) k rows
    convert this using 2
  · exact distinctOn_countP hash hv rows
  · cases pk with
    | none => simp [famDedupSql]
    | some p => obtain ⟨n, cs⟩ := p; simp [famDedupSql]

/-! ### Group skip / rebuild (claim C10)

`run_families` skips a table group iff the (nonempty-name-filtered) list of
its target tables is nonempty and every one of them already exists in the
destination.  On a rebuild, the root is `DROP TABLE IF EXISTS` +
`CREATE`-d (both in the sharded and unsharded branches) and so is every
multi-source or `pk_mod`-sharded dep, but the *simple-form* dep branch
issues a bare `CREATE UNLOGGED TABLE .. AS SELECT ..` with no preceding
drop, which the server rejects when the relation already exists.  Contents
of freshly built tables are opaque here (`freshRoot` / `freshDep`): the
claim is about which tables are dropped, rebuilt or left alone. -/

inductive DepForm where
  | simple
  | multiSource
  | pkMod
  deriving DecidableEq, Repr

structure FamDep where
  table : String
  form : DepForm
  deriving DecidableEq, Repr

/-- `fam_tables = [root] + dep tables`, with empty names filtered out, as in
`run_families`. -/
def famTargetTables (root : String) (deps : List FamDep) : List String :=
  (root :: deps.map (fun d => d.table)).filter (fun t => ¬ t = "")

/-- One dependency build of `run_families`: multi-source and pk_mod deps
drop and recreate their destination table; the simple form only issues
`CREATE .. AS`, which fails if the table exists. -/
def famDepStep {α : Type} (freshDep : String → α)
    (d : List (String × α)) (dep : FamDep) :
    Except String (List (String × α)) :=
  match dep.form with
  | .multiSource => .ok (aset d dep.table (freshDep dep.table))
  | .pkMod => .ok (aset d dep.table (freshDep dep.table))
  | .simple =>
      if (alookup d dep.table).isSome then .error "relation already exists"
      else .ok (aset d dep.table (freshDep dep.table))

/-- One table-group iteration of `run_families` over the destination
schema: skip when every target table exists, otherwise rebuild the root
(drop + create) and then each dep in declared order. -/
def famStep {α : Type} (dst : List (String × α)) (root : String)
    (deps : List FamDep) (freshRoot : α) (freshDep : String → α) :
    Except String (List (String × α)) :=
  let famTables := famTargetTables root deps
  if famTables ≠ [] ∧ famTables.all (fun t => (alookup dst t).isSome) then
    .ok dst
  else
    (deps.foldlM (famDepStep freshDep) (aset dst root freshRoot))

theorem famDeps_fold {α : Type} (freshDep : String → α) :
    ∀ (l : List FamDep) (d : List (String × α)),
      (∀ dep ∈ l, dep.form = DepForm.simple → alookup d dep.table = none) →
      (l.map (fun dep => dep.table)).Nodup →
      ∃ final, l.foldlM (famDepStep freshDep) d = .ok final ∧
        (∀ dep ∈ l, alookup final dep.table = some (freshDep dep.table)) ∧
        (∀ t, t ∉ l.map (fun dep => dep.table) →
          alookup final t = alookup d t) := by
  intro l
  induction l with
  | nil =>
      intro d _ _
      exact ⟨d, rfl, fun dep hdep => absurd hdep (List.not_mem_nil dep),
        fun t _ => rfl⟩
  | cons dep rest ih =>
      intro d habs hnodup
      have hnodup' : (rest.map (fun dep => dep.table)).Nodup := by
        simpa using hnodup.of_cons
      have hnotmem : dep.table ∉ rest.map (fun dep => dep.table) := by
        have := hnodup
        rw [List.map_cons, List.nodup_cons] at this
        exact this.1
      have hstep : famDepStep freshDep d dep =
          .ok (aset d dep.table (freshDep dep.table)) := by
        cases hform : dep.form with
        | simple =>
            have habsent := habs dep (List.mem_cons_self dep rest) hform
            simp [famDepStep, hform, habsent]
        | multiSource => simp [famDepStep, hform]
        | pkMod => simp [famDepStep, hform]
      set d2 := aset d dep.table (freshDep dep.table) with hd2
      have habs' : ∀ dp ∈ rest, dp.form = DepForm.simple →
          alookup d2 dp.table = none := by
        intro dp hdp hform
        have hne : dp.table ≠ dep.table := by
          intro heq
          exact hnotmem (heq ▸ List.mem_map_of_mem (fun x => x.table) hdp)
        rw [hd2, alookup_aset_other d dep.table dp.table _ hne]
        exact habs dp (List.mem_cons_of_mem dep hdp) hform
      obtain ⟨final, hfold, hdeps, hframe⟩ := ih d2 habs' hnodup'
      refine ⟨final, ?_, ?_, ?_⟩
      · rw [List.foldlM_cons, hstep]
        exact hfold
      · intro dp hdp
        cases hdp with
        | head =>
            rw [hframe dep.table hnotmem, hd2]
            exact alookup_aset_self d dep.table _
        | tail _ hm => exact hdeps dp hm
      · intro t ht
        have ht1 : t ≠ dep.table := by
          intro heq
          exact ht (heq ▸ List.mem_cons_self _ _)
        have ht2 : t ∉ rest.map (fun dep => dep.table) := by
          intro hm
          exact ht (List.mem_cons_of_mem _ hm)
        rw [hframe t ht2, hd2, alookup_aset_other d dep.table t _ ht1]

/-- **C10, counterexample.** A group whose root `order` is missing but whose
simple-form dep `order_item` already exists: the code does not drop and
recreate the dep — the bare `CREATE .. AS` fails, so the claimed
"rebuilds the group, dropping and recreating even those destination tables
of the group that already exist" is false. -/
theorem famStep_c10_counterexample :
    (famTargetTables "order" [⟨"order_item", .simple⟩]).all
        (fun t => (alookup [("order_item", (0 : Nat))] t).isSome) = false ∧
    exceptIsOk (famStep [("order_item", (0 : Nat))] "order"
        [⟨"order_item", .simple⟩] 1 (fun _ => 2)) = false := by
  decide

/-- **C10 (amended).** With nonempty table names and pairwise-distinct group
tables: `run_families` leaves a group's destination tables untouched exactly
when every target table (root and declared deps) exists; when at least one
is missing it rebuilds the group — the root and every multi-source or
pk_mod dep are dropped and recreated even if present, tables outside the
group are untouched — but a simple-form dep must not already exist: for it
no drop is issued and the bare `CREATE .. AS` fails. -/
theorem famStep_c10 {α : Type} (dst : List (String × α)) (root : String)
    (deps : List FamDep) (freshRoot : α) (freshDep : String → α)
    (hroot : root ≠ "")
    (hnames : ∀ dep ∈ deps, dep.table ≠ "")
    (hnodup : (root :: deps.map (fun dep => dep.table)).Nodup) :
    ((famTargetTables root deps).all
        (fun t => (alookup dst t).isSome) = true →
      famStep dst root deps freshRoot freshDep = .ok dst) ∧
    ((famTargetTables root deps).all
        (fun t => (alookup dst t).isSome) = false →
      (∀ dep ∈ deps, dep.form = DepForm.simple →
        alookup dst dep.table = none) →
      ∃ final, famStep dst root deps freshRoot freshDep = .ok final ∧
        alookup final root = some freshRoot ∧
        (∀ dep ∈ deps,
          alookup final dep.table = some (freshDep dep.table)) ∧
        (∀ t, t ∉ root :: deps.map (fun dep => dep.table) →
          alookup final t = alookup dst t)) := by
  have hne : famTargetTables root deps ≠ [] := by
    intro h
    have : root ∈ famTargetTables root deps := by
      rw [famTargetTables]
      exact List.mem_filter.mpr ⟨List.mem_cons_self _ _, by simpa using hroot⟩
    rw [h] at this
    exact List.not_mem_nil root this
  constructor
  · intro hall
    rw [famStep, if_pos ⟨hne, hall⟩]
  · intro hall hsimple
    have hnodup' : (deps.map (fun dep => dep.table)).Nodup := hnodup.of_cons
    have hrootnot : root ∉ deps.map (fun dep => dep.table) := by
      rw [List.nodup_cons] at hnodup
      exact hnodup.1
    have habs : ∀ dep ∈ deps, dep.form = DepForm.simple →
        alookup (aset dst root freshRoot) dep.table = none := by
      intro dep hdep hform
      have hne2 : dep.table ≠ root := by
        intro heq
        exact hrootnot (heq ▸ List.mem_map_of_mem (fun x => x.table) hdep)
      rw [alookup_aset_other dst root dep.table _ hne2]
      exact hsimple dep hdep hform
    obtain ⟨final, hfold, hdeps, hframe⟩ :=
      famDeps_fold freshDep deps (aset dst root freshRoot) habs hnodup'
    refine ⟨final, ?_, ?_, hdeps, ?_⟩
    · rw [famStep, if_neg (by rw [hall]; simp)]
      exact hfold
    · rw [hframe root hrootnot]
      exact alookup_aset_self dst root _
    · intro t ht
      have ht1 : t ≠ root := fun h => ht (h ▸ List.mem_cons_self _ _)
      have ht2 : t ∉ deps.map (fun dep => dep.table) := by
        intro hm
        exact ht (List.mem_cons_of_mem _ hm)
      rw [hframe t ht2, alookup_aset_other dst root t _ ht1]

/-- **C10, witness.** The amended theorem at a concrete group (`store` root
with one multi-source dep and one absent simple dep, an unrelated table
`album` untouched). -/
theorem famStep_c10_witness :
    ("store" : String) ≠ "" ∧
    (∀ dep ∈ [(⟨"product", .multiSource⟩ : FamDep), ⟨"batch", .simple⟩],
      dep.table ≠ "") ∧
    ((("store" : String) ::
      ([(⟨"product", .multiSource⟩ : FamDep), ⟨"batch", .simple⟩].map
        (fun dep => dep.table))).Nodup) ∧
    (((famTargetTables "store"
        [⟨"product", .multiSource⟩, ⟨"batch", .simple⟩]).all
        (fun t => (alookup [("album", (9 : Nat)),
          ("product", 7)] t).isSome) = true →
      famStep [("album", (9 : Nat)), ("product", 7)] "store"
        [⟨"product", .multiSource⟩, ⟨"batch", .simple⟩] 1 (fun _ => 2) =
        .ok [("album", 9), ("product", 7)]) ∧
    ((famTargetTables "store"
        [⟨"product", .multiSource⟩, ⟨"batch", .simple⟩]).all
        (fun t => (alookup [("album", (9 : Nat)),
          ("product", 7)] t).isSome) = false →
      (∀ dep ∈ [(⟨"product", .multiSource⟩ : FamDep), ⟨"batch", .simple⟩],
        dep.form = DepForm.simple →
        alookup [("album", (9 : Nat)), ("product", 7)] dep.table = none) →
      ∃ final, famStep [("album", (9 : Nat)), ("product", 7)] "store"
          [⟨"product", .multiSource⟩, ⟨"batch", .simple⟩] 1 (fun _ => 2) =
          .ok final ∧
        alookup final "store" = some 1 ∧
        (∀ dep ∈ [(⟨"product", .multiSource⟩ : FamDep), ⟨"batch", .simple⟩],
          alookup final dep.table = some 2) ∧
        (∀ t, t ∉ ("store" : String) ::
            ([(⟨"product", .multiSource⟩ : FamDep), ⟨"batch", .simple⟩].map
              (fun dep => dep.table)) →
          alookup final t =
            alookup [("album", (9 : Nat)), ("product", 7)] t))) :=
  ⟨by decide, by decide, by decide,
    famStep_c10 [("album", (9 : Nat)), ("product", 7)] "store"
      [⟨"product", .multiSource⟩, ⟨"batch", .simple⟩] 1 (fun _ => 2)
      (by decide) (by decide) (by decide)⟩

/-! ## Selection resolver (`engine/selections.py`)

The resolver executes SQL text against the server and registers sub-query
strings for later joins.  The server is an oracle `SelDb`: `run q` is the
first column of the rows the (deterministic) server returns for the SQL
text `q` executed with no bound parameters, `runParams`/`runDict` the same
with a positional tuple / named dict of parameters, `runPairs` a two-column
result whose components are `some n` when Python's `int()` coercion
succeeds and `none` when it raises.  `tblExists`, `colExists` and
`colTables` model the introspection helpers. -/

structure SelDb where
  run : String → List Int
  runParams : String → List Int → List Int
  runDict : String → List (String × Int) → List Int
  runPairs : String → List (Option Int × Option Int)
  tblExists : String → String → Bool
  colExists : String → String → String → Bool
  colTables : String → String → List String

/-- A registered sub-query: `_values_sql` literals (`.values`, rendered as
`SELECT id FROM (VALUES ...) AS v(id)`, or `SELECT NULL::bigint AS id WHERE
FALSE` when empty), a raw SQL text registered verbatim (`.query`), or the
`'sql'`-mode wrapper `SELECT id FROM (inner) AS src(id)` whose result is
exactly the first column of `inner` (`.wrapFirst`). -/
inductive SelSql where
  | values (ids : List Int)
  | query (sql : String)
  | wrapFirst (inner : String)
  deriving DecidableEq, Repr

/-- Executing a registered sub-query against the server. -/
def evalSelSql (db : SelDb) : SelSql → List Int
  | .values l => l
  | .query s => db.run s
  | .wrapFirst s => db.run s

/-- `scope_or_exists` `exists` block (`econf`): mapping table, join column
pair, filter column/selection, optional local predicate (column, value),
`require_local_not_null`. -/
structure ExistsCfg where
  mapTable : String
  onLocal : String
  onForeign : String
  filtCol : String
  filtSel : String
  localPred : Option (String × Int)
  requireNotNull : Bool
  deriving DecidableEq, Repr

/-- The selector variants of `_select_ids` (`mode` dispatch).  References
carry `(schema override, table, column)`; `refers_to_stage` targets carry
`(stage_table, local_column, stage_id_col)`. -/
inductive RootSel where
  | idList (ids : List Int)
  | sqlq (sql : String) (params : List (String × Int))
  | referencedBy (refs : List (Option String × String × String))
  | fkInStage (fkCol stageTable stageIdCol : String)
  | refersToStage (targets : List (String × String × String))
  | referencedByColumn (schema : Option String) (column : String)
      (extraRefs : List (Option String × String × String))
  | scopeOrExists (scopeCol scopeSel : String) (excludeValues : List Int)
      (existsCfg : Option ExistsCfg)
  deriving DecidableEq, Repr

structure ShardCfg where
  count : Int
  strategy : String
  weightsSql : Option String
  deriving DecidableEq, Repr

structure SelRoot where
  name : String
  table : String
  selector : RootSel
  ensure : List Int
  shard : Option ShardCfg
  deriving DecidableEq, Repr

structure SelCfg where
  sourceSchema : String
  destSchema : String
  deriving DecidableEq, Repr

def quoteQual (schema tbl : String) : String :=
  "\"" ++ schema ++ "\".\"" ++ tbl ++ "\""

/-- The body of `_select_ids` before the `ensure` loop: resolve the selector
to the identifier list and the sub-query that is registered for it.  The
`referenced_by_column` branch with an empty column name and the
`scope_or_exists` branch with a missing table / column / selection leave the
Python local `sel_sql` unassigned, so the function raises
(`UnboundLocalError`) — modelled as `.error`. -/
def selectIdsCore (db : SelDb) (cfg : SelCfg) (root : SelRoot) :
    Except String (List Int × SelSql) :=
  match root.selector with
  | .idList ids => .ok (ids, .values ids)
  | .sqlq sql params =>
      let ids := if params.isEmpty then db.run sql else db.runDict sql params
      .ok (ids, .wrapFirst sql)
  | .referencedBy refs =>
      let parts := refs.filterMap (fun r =>
        let schema := r.1.getD cfg.destSchema
        let tbl := r.2.1
        let col := r.2.2
        if tbl = "" ∨ col = "" then none
        else if db.tblExists schema tbl then
          some ("SELECT DISTINCT " ++ col ++ " AS id FROM " ++
            quoteQual schema tbl)
        else none)
      if parts.isEmpty then .ok ([], .values [])
      else
        let unionSql := String.intercalate " UNION " parts
        let q := "SELECT id FROM (" ++ unionSql ++
          ") AS r WHERE id IS NOT NULL"
        .ok (db.run q, .query q)
  | .fkInStage fkCol stageTable stageIdCol =>
      if root.table ≠ "" ∧ fkCol ≠ "" ∧ stageTable ≠ "" ∧
          db.tblExists cfg.sourceSchema root.table ∧
          db.tblExists cfg.destSchema stageTable then
        let q := "SELECT DISTINCT d.id FROM " ++
          quoteQual cfg.sourceSchema root.table ++ " d JOIN " ++
          quoteQual cfg.destSchema stageTable ++ " s ON s.\"" ++
          stageIdCol ++ "\" = d.\"" ++ fkCol ++ "\" WHERE d.\"" ++
          fkCol ++ "\" IS NOT NULL"
        .ok (db.run q, .query q)
      else .ok ([], .values [])
  | .refersToStage targets =>
      let clauses := targets.filterMap (fun t =>
        let st := t.1
        let lc := t.2.1
        let sid := t.2.2
        if st ≠ "" ∧ lc ≠ "" ∧ db.tblExists cfg.destSchema st then
          some ("EXISTS (SELECT 1 FROM " ++ quoteQual cfg.destSchema st ++
            " x WHERE x.\"" ++ sid ++ "\" = d.\"" ++ lc ++ "\")")
        else none)
      if root.table ≠ "" ∧ db.tblExists cfg.sourceSchema root.table ∧
          ¬ clauses.isEmpty then
        let q := "SELECT DISTINCT d.id FROM " ++
          quoteQual cfg.sourceSchema root.table ++ " d WHERE " ++
          String.intercalate " OR " clauses
        .ok (db.run q, .query q)
      else .ok ([], .values [])
  | .referencedByColumn schemaOpt col extraRefs =>
      if col = "" then .error "UnboundLocalError: sel_sql"
      else
        let schema := schemaOpt.getD cfg.destSchema
        let tables := db.colTables schema col
        let parts1 := tables.map (fun t =>
          "SELECT DISTINCT \"" ++ col ++ "\" AS id FROM " ++
            quoteQual schema t)
        let parts2 := extraRefs.filterMap (fun r =>
          let sch := r.1.getD cfg.destSchema
          let tbl := r.2.1
          let c := r.2.2
          if tbl ≠ "" ∧ c ≠ "" ∧ db.tblExists sch tbl ∧
              db.colExists sch tbl c then
            some ("SELECT DISTINCT \"" ++ c ++ "\" AS id FROM " ++
              quoteQual sch tbl)
          else none)
        let parts := parts1 ++ parts2
        if parts.isEmpty then .ok ([], .values [])
        else
          let q := "SELECT id FROM (" ++
            String.intercalate " UNION " parts ++ ") u WHERE id IS NOT NULL"
          .ok (db.run q, .query q)
  | .scopeOrExists scopeCol scopeSel excludeValues existsCfg =>
      if root.table = "" ∨ scopeCol = "" ∨ scopeSel = "" ∨
          ¬ db.tblExists cfg.sourceSchema root.table then
        .error "UnboundLocalError: sel_sql"
      else
        let exclSql :=
          if excludeValues.isEmpty then ""
          else " AND d.\"" ++ scopeCol ++ "\" NOT IN (" ++
            String.intercalate "," (List.replicate excludeValues.length "%s")
            ++ ")"
        let scopeSql := " (d.\"" ++ scopeCol ++ "\" IN (SELECT id FROM \""
          ++ cfg.destSchema ++ "\".\"_sel_" ++ scopeSel ++ "_ids\"))" ++
          exclSql ++ " "
        let lpParams :=
          match existsCfg with
          | some e =>
              if e.mapTable ≠ "" then
                match e.localPred with
                | some lp => [lp.2]
                | none => []
              else []
          | none => []
        let params := excludeValues ++ lpParams
        let existsSql :=
          match existsCfg with
          | some e =>
              if e.mapTable ≠ "" ∧ e.onLocal ≠ "" ∧ e.onForeign ≠ "" ∧
                  e.filtCol ≠ "" ∧ e.filtSel ≠ "" ∧
                  db.tblExists cfg.sourceSchema e.mapTable then
                let nn := if e.requireNotNull then
                  " AND d.\"" ++ e.onLocal ++ "\" IS NOT NULL" else ""
                let lpSql :=
                  match e.localPred with
                  | some lp => " AND d.\"" ++ lp.1 ++ "\" = %s"
                  | none => ""
                " (1=1" ++ nn ++ lpSql ++ " AND EXISTS (SELECT 1 FROM " ++
                  quoteQual cfg.sourceSchema e.mapTable ++
                  " m WHERE m.\"" ++ e.onForeign ++ "\" = d.\"" ++
                  e.onLocal ++ "\" AND m.\"" ++ e.filtCol ++
                  "\" IN (SELECT id FROM \"" ++ cfg.destSchema ++
                  "\".\"_sel_" ++ e.filtSel ++ "_ids\"))) "
              else ""
          | none => ""
        let whereSql :=
          if existsSql = "" then scopeSql
          else "(" ++ scopeSql ++ ") OR (" ++ existsSql ++ ")"
        let q := "SELECT DISTINCT d.id FROM " ++
          quoteQual cfg.sourceSchema root.table ++ " d WHERE " ++ whereSql
        let ids := if params.isEmpty then db.run q
          else db.runParams q params
        .ok (ids, .query q)

/-- The `ensure` loop of `_select_ids`: append each ensure identifier not
already present (the sub-query is left untouched). -/
def appendEnsure (ids : List Int) (ensureList : List Int) : List Int :=
  ensureList.foldl (fun acc i => if i ∈ acc then acc else acc ++ [i]) ids

/-- `_select_ids`: resolve the selector, then run the `ensure` loop. -/
def selectIds (db : SelDb) (cfg : SelCfg) (root : SelRoot) :
    Except String (List Int × SelSql) :=
  match selectIdsCore db cfg root with
  | .error e => .error e
  | .ok (ids, s) => .ok (appendEnsure ids root.ensure, s)

/-- Whether `_select_ids` binds query parameters for this selector: the
`sql` mode passes its `params` dict, and `scope_or_exists` builds a
positional parameter list from `exclude_values` plus the `local_predicate`
value (the latter whenever the `exists` block's outer guard passes). -/
def noBoundParams : RootSel → Bool
  | .sqlq _ params => params.isEmpty
  | .scopeOrExists _ _ excludeValues existsCfg =>
      excludeValues.isEmpty &&
        (match existsCfg with
         | some e => decide (e.mapTable = "") || decide (e.localPred = none)
         | none => true)
  | _ => true

/-! ### Sharding (`build_selections`)

`round_robin` sends the identifier at input index `i` to shard
`i mod count`; `weighted` reads `(id, weight)` rows from `weights_sql`
(raising on a row whose id or weight `int()` cannot coerce), sorts the
identifiers by weight descending — Python's stable sort — and greedily
assigns each to the shard with the least running total, first such shard on
ties. -/

def appendAt {α : Type} : Nat → α → List (List α) → List (List α)
  | _, _, [] => []
  | 0, x, l :: ls => (l ++ [x]) :: ls
  | n + 1, x, l :: ls => l :: appendAt n x ls

def addAt : Nat → Int → List Int → List Int
  | _, _, [] => []
  | 0, w, t :: ts => (t + w) :: ts
  | n + 1, w, t :: ts => t :: addAt n w ts

/-- `min(range(count), key=lambda idx: totals[idx])`: the first index with
the minimal running total. -/
def argminIdx (totals : List Int) : Nat :=
  match totals with
  | [] => 0
  | t :: ts =>
      let rest := argminIdx ts
      if totals.getD (rest + 1) t < t then rest + 1 else 0

/-- Stable insertion (descending by weight): a new item is placed after all
already-sorted items of greater or equal weight, as Python's stable
`sort(key=weight, reverse=True)` does for items arriving later. -/
def insDesc (x : Int × Int) : List (Int × Int) → List (Int × Int)
  | [] => [x]
  | y :: ys => if y.2 ≥ x.2 then y :: insDesc x ys else x :: y :: ys

def sortWeightDesc (l : List (Int × Int)) : List (Int × Int) :=
  l.foldl (fun acc x => insDesc x acc) []

/-- One `weights_sql` row into `weights_map`: `weights_map[int(rid)] =
int(w)` (a repeated id overwrites its earlier binding, as a dict does); a
row whose id or weight cannot be coerced raises `ValueError`. -/
def weightRowStep (m : List (Int × Int)) (r : Option Int × Option Int) :
    Except String (List (Int × Int)) :=
  match r.1, r.2 with
  | some rid, some w => .ok (m.filter (fun p => p.1 ≠ rid) ++ [(rid, w)])
  | _, _ => .error "Invalid weights row from weights_sql"

def buildWeightMap (rows : List (Option Int × Option Int)) :
    Except String (List (Int × Int)) :=
  rows.foldlM weightRowStep []

def intLookupD (m : List (Int × Int)) (k : Int) (dflt : Int) : Int :=
  match m.find? (fun p => p.1 = k) with
  | some p => p.2
  | none => dflt

/-- One step of the weighted greedy assignment: pick the shard with the
least running total (ties: first), append the id, bump the total. -/
def greedyStep (state : List (List Int) × List Int) (item : Int × Int) :
    List (List Int) × List Int :=
  let k := argminIdx state.2
  (appendAt k item.1 state.1, addAt k item.2 state.2)

def weightedShards (count : Nat) (items : List (Int × Int)) :
    List (List Int) :=
  (items.foldl greedyStep (List.replicate count [], List.replicate count 0)).1

def roundRobinShards (count : Nat) (ids : List Int) : List (List Int) :=
  (ids.enum.foldl (fun sh p => appendAt (p.1 % count) p.2 sh)
    (List.replicate count []))

/-- The shard construction of `build_selections` for one root: `[]` when
`shard.count ≤ 1`; otherwise the weighted strategy when configured with a
truthy `weights_sql`, else round-robin.  Returns the per-shard identifier
lists (each registered as a `_values_sql` literal). -/
def buildShards (db : SelDb) (root : SelRoot) (ids : List Int) :
    Except String (List (List Int)) :=
  match root.shard with
  | none => .ok []
  | some sh =>
      if sh.count > 1 then
        if sh.strategy = "weighted" ∧ sh.weightsSql ≠ none ∧
            sh.weightsSql ≠ some "" then
          match sh.weightsSql with
          | none => .ok (roundRobinShards sh.count.toNat ids)
          | some wsql => do
              let wm ← buildWeightMap (db.runPairs wsql)
              let items := ids.map (fun i => (i, intLookupD wm i 1))
              .ok (weightedShards sh.count.toNat (sortWeightDesc items))
        else .ok (roundRobinShards sh.count.toNat ids)
      else .ok []

structure SelEntry where
  sql : SelSql
  shards : List SelSql
  deriving DecidableEq, Repr

/-- One root's iteration of `build_selections`: require a name, resolve the
selector, record `selections[name] = ids` and
`_selection_sources[name] = {sql, shards}`. -/
def buildSelStep (db : SelDb) (cfg : SelCfg)
    (acc : List (String × List Int) × List (String × SelEntry))
    (root : SelRoot) :
    Except String (List (String × List Int) × List (String × SelEntry)) :=
  if root.name = "" then .error "root requires a name"
  else
    match selectIds db cfg root with
    | .error e => .error e
    | .ok (ids, s) =>
        match buildShards db root ids with
        | .error e => .error e
        | .ok shs =>
            .ok (aset acc.1 root.name ids,
              aset acc.2 root.name ⟨s, shs.map SelSql.values⟩)

/-- `build_selections`: resolve each root in order, recording the resolved
identifier list in `selections[name]` and the sub-query (plus shard
sub-queries) in `cfg['_selection_sources'][name]`. -/
def buildSelections (db : SelDb) (cfg : SelCfg) (roots : List SelRoot) :
    Except String (List (String × List Int) × List (String × SelEntry)) :=
  roots.foldlM (buildSelStep db cfg) ([], [])

theorem evalSelSql_core (db : SelDb) (cfg : SelCfg) (root : SelRoot)
    (ids0 : List Int) (s : SelSql)
    (hp : noBoundParams root.selector = true)
    (h : selectIdsCore db cfg root = .ok (ids0, s)) :
    evalSelSql db s = ids0 := by
  cases hsel : root.selector with
  | idList ids =>
      simp only [selectIdsCore, hsel, Except.ok.injEq, Prod.mk.injEq] at h
      obtain ⟨h1, h2⟩ := h
      subst h1; subst h2
      rfl
  | sqlq sql params =>
      rw [hsel] at hp
      simp only [noBoundParams] at hp
      simp only [selectIdsCore, hsel, Except.ok.injEq, Prod.mk.injEq] at h
      obtain ⟨h1, h2⟩ := h
      subst h1; subst h2
      simp [evalSelSql, hp]
  | referencedBy refs =>
      simp only [selectIdsCore, hsel] at h
      split at h <;>
        (simp only [Except.ok.injEq, Prod.mk.injEq] at h
         obtain ⟨h1, h2⟩ := h
         subst h1; subst h2
         rfl)
  | fkInStage fkCol stageTable stageIdCol =>
      simp only [selectIdsCore, hsel] at h
      split at h <;>
        (simp only [Except.ok.injEq, Prod.mk.injEq] at h
         obtain ⟨h1, h2⟩ := h
         subst h1; subst h2
         rfl)
  | refersToStage targets =>
      simp only [selectIdsCore, hsel] at h
      split at h <;>
        (simp only [Except.ok.injEq, Prod.mk.injEq] at h
         obtain ⟨h1, h2⟩ := h
         subst h1; subst h2
         rfl)
  | referencedByColumn schemaOpt col extraRefs =>
      simp only [selectIdsCore, hsel] at h
      split at h
      · cases h
      · split at h <;>
          (simp only [Except.ok.injEq, Prod.mk.injEq] at h
           obtain ⟨h1, h2⟩ := h
           subst h1; subst h2
           rfl)
  | scopeOrExists scopeCol scopeSel excludeValues existsCfg =>
      rw [hsel] at hp
      simp only [noBoundParams, Bool.and_eq_true] at hp
      obtain ⟨hexcl, hcfg⟩ := hp
      simp only [selectIdsCore, hsel] at h
      split at h
      · cases h
      · simp only [Except.ok.injEq, Prod.mk.injEq] at h
        obtain ⟨h1, h2⟩ := h
        subst h1
        subst h2
        have hev : excludeValues = [] := by
          simpa [List.isEmpty_iff] using hexcl
        subst hev
        cases existsCfg with
        | none => rfl
        | some e =>
            rcases Bool.or_eq_true _ _ |>.mp hcfg with he | he
            · simp [evalSelSql, decide_eq_true_eq.mp he]
            · simp [evalSelSql, decide_eq_true_eq.mp he]

theorem appendEnsure_cons (ids : List Int) (e : Int) (rest : List Int) :
    appendEnsure ids (e :: rest) =
      appendEnsure (if e ∈ ids then ids else ids ++ [e]) rest := by
  rw [appendEnsure, appendEnsure, List.foldl_cons]

theorem appendEnsure_mem (ens ids : List Int) (x : Int) :
    x ∈ appendEnsure ids ens ↔ x ∈ ids ∨ x ∈ ens := by
  induction ens generalizing ids with
  | nil => simp [appendEnsure]
  | cons e rest ih =>
      rw [appendEnsure_cons]
      by_cases he : e ∈ ids
      · rw [if_pos he, ih]
        constructor
        · rintro (h | h)
          · exact Or.inl h
          · exact Or.inr (List.mem_cons_of_mem e h)
        · rintro (h | h)
          · exact Or.inl h
          · cases h with
            | head => exact Or.inl he
            | tail _ hm => exact Or.inr hm
      · rw [if_neg he, ih]
        simp only [List.mem_append, List.mem_singleton, List.mem_cons]
        tauto

theorem appendEnsure_nodup (ens ids : List Int) (h : ids.Nodup) :
    (appendEnsure ids ens).Nodup := by
  induction ens generalizing ids with
  | nil => exact h
  | cons e rest ih =>
      rw [appendEnsure_cons]
      by_cases he : e ∈ ids
      · rw [if_pos he]
        exact ih ids h
      · rw [if_neg he]
        refine ih (ids ++ [e]) ?_
        rw [List.nodup_append]
        refine ⟨h, List.nodup_singleton e, ?_⟩
        intro a ha hae
        rw [List.mem_singleton] at hae
        exact he (hae ▸ ha)

theorem buildSelStep_frame (db : SelDb) (cfg : SelCfg)
    (acc acc' : List (String × List Int) × List (String × SelEntry))
    (r : SelRoot) (n : String) (hne : r.name ≠ n)
    (h : buildSelStep db cfg acc r = .ok acc') :
    alookup acc'.1 n = alookup acc.1 n ∧
      alookup acc'.2 n = alookup acc.2 n := by
  unfold buildSelStep at h
  split at h
  · cases h
  · cases hsel : selectIds db cfg r with
    | error e => rw [hsel] at h; cases h
    | ok p =>
        obtain ⟨ids, s⟩ := p
        rw [hsel] at h
        dsimp only at h
        cases hsh : buildShards db r ids with
        | error e => rw [hsh] at h; cases h
        | ok shs =>
            rw [hsh] at h
            cases h
            exact ⟨alookup_aset_other _ _ _ _ (Ne.symm hne),
              alookup_aset_other _ _ _ _ (Ne.symm hne)⟩

theorem buildSelFold_frame (db : SelDb) (cfg : SelCfg) (n : String) :
    ∀ (l : List SelRoot) acc acc',
      (∀ r ∈ l, r.name ≠ n) →
      l.foldlM (buildSelStep db cfg) acc = .ok acc' →
      alookup acc'.1 n = alookup acc.1 n ∧
        alookup acc'.2 n = alookup acc.2 n := by
  intro l
  induction l with
  | nil => intro acc acc' _ h; cases h; exact ⟨rfl, rfl⟩
  | cons r rest ih =>
      intro acc acc' hnames h
      rw [List.foldlM_cons] at h
      cases hstep : buildSelStep db cfg acc r with
      | error e => rw [hstep] at h; cases h
      | ok acc1 =>
          rw [hstep] at h
          have h1 := buildSelStep_frame db cfg acc acc1 r n
            (hnames r (List.mem_cons_self r rest)) hstep
          have h2 := ih acc1 acc'
            (fun x hx => hnames x (List.mem_cons_of_mem r hx)) h
          exact ⟨h1.1 ▸ h2.1, h1.2 ▸ h2.2⟩

/-- Success of `build_selections` pins, for each root (with pairwise
distinct names), the recorded identifier list and selection entry. -/
theorem buildSelections_resolves (db : SelDb) (cfg : SelCfg) :
    ∀ (roots : List SelRoot) acc sels srcs (root : SelRoot),
      root ∈ roots →
      (roots.map SelRoot.name).Nodup →
      roots.foldlM (buildSelStep db cfg) acc = .ok (sels, srcs) →
      ∃ ids s shs, selectIds db cfg root = .ok (ids, s) ∧
        buildShards db root ids = .ok shs ∧
        alookup sels root.name = some ids ∧
        alookup srcs root.name = some ⟨s, shs.map SelSql.values⟩ := by
  intro roots
  induction roots with
  | nil => intro acc sels srcs root hmem _ _; cases hmem
  | cons r rest ih =>
      intro acc sels srcs root hmem hnodup h
      rw [List.foldlM_cons] at h
      cases hstep : buildSelStep db cfg acc r with
      | error e => rw [hstep] at h; cases h
      | ok acc1 =>
          rw [hstep] at h
          cases hmem with
          | head =>
              -- the processed root is `r`; its binding survives the fold
              have hrest : ∀ x ∈ rest, x.name ≠ r.name := by
                intro x hx heq
                rw [List.map_cons, List.nodup_cons] at hnodup
                exact hnodup.1 (heq ▸ List.mem_map_of_mem SelRoot.name hx)
              have hframe := buildSelFold_frame db cfg r.name rest acc1
                (sels, srcs) hrest h
              -- unpack the successful step
              unfold buildSelStep at hstep
              split at hstep
              · cases hstep
              · cases hsel : selectIds db cfg r with
                | error e => rw [hsel] at hstep; cases hstep
                | ok p =>
                    obtain ⟨ids, s⟩ := p
                    rw [hsel] at hstep
                    dsimp only at hstep
                    cases hsh : buildShards db r ids with
                    | error e => rw [hsh] at hstep; cases hstep
                    | ok shs =>
                        rw [hsh] at hstep
                        cases hstep
                        refine ⟨ids, s, shs, rfl, hsh, ?_, ?_⟩
                        · rw [hframe.1]
                          exact alookup_aset_self _ _ _
                        · rw [hframe.2]
                          exact alookup_aset_self _ _ _
          | tail _ hm =>
              have hnodup' : (rest.map SelRoot.name).Nodup := by
                rw [List.map_cons, List.nodup_cons] at hnodup
                exact hnodup.2
              exact ih acc1 sels srcs root hm hnodup' h

/-- A trivial database oracle for concrete counterexamples/witnesses. -/
def trivialSelDb : SelDb :=
  ⟨fun _ => [], fun _ _ => [], fun _ _ => [], fun _ => [],
   fun _ _ => false, fun _ _ _ => false, fun _ _ => []⟩

/-- **C1, counterexample.** A `list`-mode root with a duplicated literal id
and an `ensure` identifier: `build_selections` resolves the identifier list
`[1, 1, 2]` — which contains a duplicate — and registers the sub-query
`VALUES (1),(1)`, which as a set returns `{1}`, not the resolved set
`{1, 2}`: the `ensure` loop appends to the list only, never to the
registered sub-query.  Both halves of the claimed invariant fail. -/
theorem selections_c1_counterexample :
    buildSelections trivialSelDb ⟨"public", "stage"⟩
        [⟨"stores", "store", .idList [1, 1], [2], none⟩] =
      .ok ([("stores", [1, 1, 2])], [("stores", ⟨.values [1, 1], []⟩)]) ∧
    ¬ ([1, 1, 2] : List Int).Nodup ∧
    (evalSelSql trivialSelDb (.values [1, 1])).toFinset ≠
      ([1, 1, 2] : List Int).toFinset := by
  refine ⟨rfl, by decide, by decide⟩

/-- **C1 (amended).** For every root selection resolved by
`build_selections` (pairwise-distinct root names, and a selector that binds
no query parameters — `scope_or_exists` and parametrised `sql` selectors
register their SQL *without* the bound parameters): the registered
sub-query, when executed, returns exactly the identifier list the selector
itself resolved (before the `ensure` loop); the recorded identifier list is
that list with the `ensure` identifiers appended when absent (`ensure` has
no effect on the sub-query); and the recorded list is duplicate-free
whenever the selector's own output is duplicate-free. -/
theorem selections_c1 (db : SelDb) (cfg : SelCfg) (roots : List SelRoot)
    (sels : List (String × List Int)) (srcs : List (String × SelEntry))
    (root : SelRoot)
    (hrun : buildSelections db cfg roots = .ok (sels, srcs))
    (hmem : root ∈ roots)
    (hnodup : (roots.map SelRoot.name).Nodup)
    (hparams : noBoundParams root.selector = true) :
    ∃ ids0 s entry,
      selectIdsCore db cfg root = .ok (ids0, s) ∧
      alookup sels root.name = some (appendEnsure ids0 root.ensure) ∧
      alookup srcs root.name = some entry ∧
      entry.sql = s ∧
      evalSelSql db s = ids0 ∧
      (∀ x, x ∈ appendEnsure ids0 root.ensure ↔
        x ∈ ids0 ∨ x ∈ root.ensure) ∧
      (ids0.Nodup → (appendEnsure ids0 root.ensure).Nodup) := by
  obtain ⟨ids, s, shs, hsel, hsh, hlook1, hlook2⟩ :=
    buildSelections_resolves db cfg roots ([], []) sels srcs root hmem
      hnodup hrun
  unfold selectIds at hsel
  cases hcore : selectIdsCore db cfg root with
  | error e => rw [hcore] at hsel; cases hsel
  | ok p =>
      obtain ⟨ids0, s0⟩ := p
      rw [hcore] at hsel
      dsimp only at hsel
      simp only [Except.ok.injEq, Prod.mk.injEq] at hsel
      obtain ⟨h1, h2⟩ := hsel
      subst h1
      subst h2
      refine ⟨ids0, s0, ⟨s0, shs.map SelSql.values⟩, rfl, hlook1, hlook2,
        rfl, evalSelSql_core db cfg root ids0 s0 hparams hcore,
        fun x => appendEnsure_mem root.ensure ids0 x,
        fun hnd => appendEnsure_nodup root.ensure ids0 hnd⟩

/-- **C1, witness.** The amended theorem at a concrete `list`-mode root. -/
theorem selections_c1_witness :
    buildSelections trivialSelDb ⟨"public", "stage"⟩
        [⟨"stores", "store", .idList [1, 2], [5], none⟩] =
      .ok ([("stores", [1, 2, 5])], [("stores", ⟨.values [1, 2], []⟩)]) ∧
    (⟨"stores", "store", .idList [1, 2], [5], none⟩ : SelRoot) ∈
      [(⟨"stores", "store", .idList [1, 2], [5], none⟩ : SelRoot)] ∧
    (([(⟨"stores", "store", .idList [1, 2], [5], none⟩ : SelRoot)]).map
      SelRoot.name).Nodup ∧
    noBoundParams (RootSel.idList [1, 2]) = true ∧
    (∃ ids0 s entry,
      selectIdsCore trivialSelDb ⟨"public", "stage"⟩
          ⟨"stores", "store", .idList [1, 2], [5], none⟩ = .ok (ids0, s) ∧
      alookup [("stores", [1, 2, 5])] "stores" =
        some (appendEnsure ids0 [5]) ∧
      alookup [("stores", (⟨SelSql.values [1, 2], []⟩ : SelEntry))]
        "stores" = some entry ∧
      entry.sql = s ∧
      evalSelSql trivialSelDb s = ids0 ∧
      (∀ x, x ∈ appendEnsure ids0 [5] ↔ x ∈ ids0 ∨ x ∈ [5]) ∧
      (ids0.Nodup → (appendEnsure ids0 [5]).Nodup)) :=
  ⟨rfl, by decide, by decide, by decide,
    selections_c1 trivialSelDb ⟨"public", "stage"⟩
      [⟨"stores", "store", .idList [1, 2], [5], none⟩]
      [("stores", [1, 2, 5])] [("stores", ⟨.values [1, 2], []⟩)]
      ⟨"stores", "store", .idList [1, 2], [5], none⟩
      rfl (List.mem_singleton.mpr rfl) (by decide) (by decide)⟩

theorem appendAt_length {α : Type} :
    ∀ (k : Nat) (x : α) (sh : List (List α)),
      (appendAt k x sh).length = sh.length := by
  intro k x sh
  induction sh generalizing k with
  | nil => cases k <;> rfl
  | cons l ls ih =>
      cases k with
      | zero => rfl
      | succ n => simp [appendAt, ih n]

theorem addAt_length :
    ∀ (k : Nat) (w : Int) (t : List Int), (addAt k w t).length = t.length := by
  intro k w t
  induction t generalizing k with
  | nil => cases k <;> rfl
  | cons x xs ih =>
      cases k with
      | zero => rfl
      | succ n => simp [addAt, ih n]

theorem join_appendAt {α : Type} :
    ∀ (sh : List (List α)) (k : Nat) (x : α), k < sh.length →
      (appendAt k x sh).join.Perm (x :: sh.join) := by
  intro sh
  induction sh with
  | nil => intro k x hk; cases hk
  | cons l ls ih =>
      intro k x hk
      cases k with
      | zero =>
          simp only [appendAt, List.join_cons, List.append_assoc,
            List.singleton_append]
          exact List.perm_middle
      | succ n =>
          have hn : n < ls.length := by
            simpa using Nat.lt_of_succ_lt_succ hk
          simp only [appendAt, List.join_cons]
          exact ((ih n x hn).append_left l).trans List.perm_middle

theorem rrFold_join (count : Nat) (hpos : 0 < count) :
    ∀ (pairs : List (Nat × Int)) (sh : List (List Int)),
      sh.length = count →
      ((pairs.foldl (fun s p => appendAt (p.1 % count) p.2 s) sh).join).Perm
        ((pairs.map Prod.snd) ++ sh.join) := by
  intro pairs
  induction pairs with
  | nil => intro sh _; simp
  | cons p rest ih =>
      intro sh hlen
      rw [List.foldl_cons]
      have hk : p.1 % count < sh.length := by
        rw [hlen]; exact Nat.mod_lt _ hpos
      have hlen' : (appendAt (p.1 % count) p.2 sh).length = count := by
        rw [appendAt_length, hlen]
      exact (ih _ hlen').trans
        (((join_appendAt sh _ p.2 hk).append_left _).trans List.perm_middle)

theorem roundRobinShards_join (count : Nat) (hpos : 0 < count)
    (ids : List Int) : (roundRobinShards count ids).join.Perm ids := by
  have h := rrFold_join count hpos ids.enum (List.replicate count [])
    (by simp)
  rw [roundRobinShards]
  have hj : (List.replicate count ([] : List Int)).join = [] := by
    induction count with
    | zero => rfl
    | succ n ihn => simpa [List.replicate] using ihn
  rw [hj, List.append_nil, List.enum_map_snd] at h
  exact h

theorem argminIdx_lt : ∀ (totals : List Int), totals ≠ [] →
    argminIdx totals < totals.length := by
  intro totals
  induction totals with
  | nil => intro h; exact absurd rfl h
  | cons t ts ih =>
      intro _
      rw [argminIdx]
      split
      · rename_i hcond
        by_cases hts : ts = []
        · rw [hts] at hcond
          simp [List.getD] at hcond
        · have h2 : argminIdx ts < ts.length := ih hts
          simpa using Nat.succ_lt_succ h2
      · simp

theorem greedyFold_join :
    ∀ (items : List (Int × Int)) (sh : List (List Int)) (tot : List Int),
      sh.length = tot.length → tot ≠ [] →
      ((items.foldl greedyStep (sh, tot)).1).join.Perm
        ((items.map Prod.fst) ++ sh.join) := by
  intro items
  induction items with
  | nil => intro sh tot _ _; simp
  | cons it rest ih =>
      intro sh tot hlen hne
      rw [List.foldl_cons]
      have hk : argminIdx tot < tot.length := argminIdx_lt tot hne
      have hk' : argminIdx tot < sh.length := by rw [hlen]; exact hk
      have hlen' : (appendAt (argminIdx tot) it.1 sh).length =
          (addAt (argminIdx tot) it.2 tot).length := by
        rw [appendAt_length, addAt_length, hlen]
      have hne' : addAt (argminIdx tot) it.2 tot ≠ [] := by
        intro hnil
        have := addAt_length (argminIdx tot) it.2 tot
        rw [hnil] at this
        cases tot with
        | nil => exact hne rfl
        | cons a as => simp at this
      exact (ih _ _ hlen' hne').trans
        (((join_appendAt sh _ it.1 hk').append_left _).trans
          List.perm_middle)

theorem weightedShards_join (count : Nat) (hpos : 0 < count)
    (items : List (Int × Int)) :
    (weightedShards count items).join.Perm (items.map Prod.fst) := by
  have h := greedyFold_join items (List.replicate count [])
    (List.replicate count 0) (by simp) (by
      cases count with
      | zero => exact absurd hpos (by simp)
      | succ n => simp [List.replicate])
  rw [weightedShards]
  have hj : (List.replicate count ([] : List Int)).join = [] := by
    induction count with
    | zero => rfl
    | succ n ihn => simpa [List.replicate] using ihn
  rw [hj, List.append_nil] at h
  exact h

theorem insDesc_perm (x : Int × Int) :
    ∀ (l : List (Int × Int)), (insDesc x l).Perm (x :: l) := by
  intro l
  induction l with
  | nil => exact List.Perm.refl _
  | cons y ys ih =>
      rw [insDesc]
      split
      · exact (ih.cons y).trans (List.Perm.swap x y ys)
      · exact List.Perm.refl _

theorem sortWDFold_perm :
    ∀ (l acc : List (Int × Int)),
      (l.foldl (fun a x => insDesc x a) acc).Perm (acc ++ l) := by
  intro l
  induction l with
  | nil => intro acc; simp
  | cons x xs ih =>
      intro acc
      rw [List.foldl_cons]
      exact (ih (insDesc x acc)).trans
        (((insDesc_perm x acc).append_right xs).trans List.perm_middle.symm)

theorem sortWeightDesc_perm (l : List (Int × Int)) :
    (sortWeightDesc l).Perm l := by
  simpa [sortWeightDesc] using sortWDFold_perm l []

/-- On the success path with `count > 1`, the shard lists built by
`build_selections` are, together, a permutation of the resolved identifier
list (both strategies distribute every identifier to exactly one shard). -/
theorem map_fst_pair {β : Type} (f : Int → β) :
    ∀ (ids : List Int), (ids.map (fun i => (i, f i))).map Prod.fst = ids := by
  intro ids
  induction ids with
  | nil => rfl
  | cons a l ihl => simp [ihl]

theorem buildShards_join (db : SelDb) (root : SelRoot) (sc : ShardCfg)
    (ids : List Int) (shs : List (List Int))
    (hsc : root.shard = some sc) (hcount : sc.count > 1)
    (h : buildShards db root ids = .ok shs) :
    shs.join.Perm ids := by
  have hpos : 0 < sc.count.toNat := by omega
  unfold buildShards at h
  rw [hsc] at h
  dsimp only at h
  rw [if_pos hcount] at h
  split at h
  · cases hws : sc.weightsSql with
    | none =>
        rw [hws] at h
        cases h
        exact roundRobinShards_join _ hpos ids
    | some wsql =>
        rw [hws] at h
        simp only [Bind.bind, Except.bind] at h
        cases hbw : buildWeightMap (db.runPairs wsql) with
        | error e => rw [hbw] at h; cases h
        | ok wm =>
            rw [hbw] at h
            cases h
            have h1 := weightedShards_join sc.count.toNat hpos
              (sortWeightDesc (ids.map (fun i => (i, intLookupD wm i 1))))
            have h2 : (sortWeightDesc
                (ids.map (fun i => (i, intLookupD wm i 1)))).Perm
                (ids.map (fun i => (i, intLookupD wm i 1))) :=
              sortWeightDesc_perm _
            have h3 := h1.trans (h2.map Prod.fst)
            rw [map_fst_pair (fun i => intLookupD wm i 1) ids] at h3
            exact h3
  · cases h
    exact roundRobinShards_join _ hpos ids

theorem map_eval_values (db : SelDb) :
    ∀ (shs : List (List Int)),
      (shs.map SelSql.values).map (evalSelSql db) = shs := by
  intro shs
  induction shs with
  | nil => rfl
  | cons a l ihs => simp [evalSelSql, ihs]

theorem shards_disjoint (shs : List (List Int)) (ids : List Int)
    (hperm : shs.join.Perm ids) (hnd : ids.Nodup) :
    shs.Pairwise List.Disjoint := by
  have hj : shs.join.Nodup := (hperm.nodup_iff).mpr hnd
  exact (List.nodup_join.mp hj).2

/-- **C2, counterexample.** A `list`-mode root whose literal ids contain a
duplicate, sharded round-robin over two shards: both shards receive `1`, so
the shard sub-queries are not pairwise disjoint. -/
theorem selections_c2_counterexample :
    buildSelections trivialSelDb ⟨"public", "stage"⟩
        [⟨"stores", "store", .idList [1, 1], [],
          some ⟨2, "round_robin", none⟩⟩] =
      .ok ([("stores", [1, 1])],
        [("stores", ⟨.values [1, 1], [.values [1], .values [1]]⟩)]) ∧
    ¬ ([([1] : List Int), [1]].Pairwise List.Disjoint) := by
  refine ⟨rfl, ?_⟩
  intro h
  have h1 := (List.pairwise_cons.mp h).1 [1] (by simp)
  exact (h1 (by simp : (1 : Int) ∈ [1])) (by simp)

/-- **C2 (amended).** For every root selection with `shard.count > 1`
resolved by `build_selections` (pairwise-distinct root names), the
registered shard sub-queries, executed, return sets whose union is exactly
the resolved selection set (ensure identifiers included); and *provided the
resolved identifier list is duplicate-free* the shards are pairwise
disjoint.  With a duplicated identifier the same value lands in two shards,
so the unconditional disjointness claim fails. -/
theorem selections_c2 (db : SelDb) (cfg : SelCfg) (roots : List SelRoot)
    (sels : List (String × List Int)) (srcs : List (String × SelEntry))
    (root : SelRoot) (sc : ShardCfg)
    (hrun : buildSelections db cfg roots = .ok (sels, srcs))
    (hmem : root ∈ roots)
    (hnodup : (roots.map SelRoot.name).Nodup)
    (hsc : root.shard = some sc) (hcount : sc.count > 1) :
    ∃ ids entry, alookup sels root.name = some ids ∧
      alookup srcs root.name = some entry ∧
      ((entry.shards.map (evalSelSql db)).join.toFinset = ids.toFinset) ∧
      (ids.Nodup → (entry.shards.map (evalSelSql db)).Pairwise
        List.Disjoint) := by
  obtain ⟨ids, s, shs, hsel, hsh, hlook1, hlook2⟩ :=
    buildSelections_resolves db cfg roots ([], []) sels srcs root hmem
      hnodup hrun
  have heval := map_eval_values db shs
  have hperm := buildShards_join db root sc ids shs hsc hcount hsh
  refine ⟨ids, ⟨s, shs.map SelSql.values⟩, hlook1, hlook2, ?_, ?_⟩
  · rw [heval]
    apply Finset.ext
    intro a
    simp only [List.mem_toFinset]
    exact hperm.mem_iff
  · intro hnd
    rw [heval]
    exact shards_disjoint shs ids hperm hnd

/-- **C2, witness.** The amended theorem at a round-robin sharded
`list`-mode root with distinct ids `[1, 2, 3]` over two shards
(`[[1, 3], [2]]`). -/
theorem selections_c2_witness :
    buildSelections trivialSelDb ⟨"public", "stage"⟩
        [⟨"stores", "store", .idList [1, 2, 3], [],
          some ⟨2, "round_robin", none⟩⟩] =
      .ok ([("stores", [1, 2, 3])],
        [("stores", ⟨.values [1, 2, 3],
          [.values [1, 3], .values [2]]⟩)]) ∧
    (⟨"stores", "store", .idList [1, 2, 3], [],
      some ⟨2, "round_robin", none⟩⟩ : SelRoot) ∈
      [(⟨"stores", "store", .idList [1, 2, 3], [],
        some ⟨2, "round_robin", none⟩⟩ : SelRoot)] ∧
    (((2 : Int) > 1) ∧
    (∃ ids entry,
      alookup [("stores", ([1, 2, 3] : List Int))] "stores" = some ids ∧
      alookup [("stores", (⟨SelSql.values [1, 2, 3],
        [SelSql.values [1, 3], SelSql.values [2]]⟩ : SelEntry))] "stores" =
        some entry ∧
      ((entry.shards.map (evalSelSql trivialSelDb)).join.toFinset =
        ids.toFinset) ∧
      (ids.Nodup → (entry.shards.map (evalSelSql trivialSelDb)).Pairwise
        List.Disjoint))) :=
  ⟨rfl, by decide, by decide,
    selections_c2 trivialSelDb ⟨"public", "stage"⟩
      [⟨"stores", "store", .idList [1, 2, 3], [],
        some ⟨2, "round_robin", none⟩⟩]
      [("stores", [1, 2, 3])]
      [("stores", ⟨.values [1, 2, 3], [.values [1, 3], .values [2]]⟩)]
      ⟨"stores", "store", .idList [1, 2, 3], [],
        some ⟨2, "round_robin", none⟩⟩
      ⟨2, "round_robin", none⟩
      rfl (List.mem_singleton.mpr rfl) (by decide) rfl (by decide)⟩

theorem buildWeightMap_error :
    ∀ (rows : List (Option Int × Option Int)) (acc : List (Int × Int)),
      (∃ r ∈ rows, r.1 = none ∨ r.2 = none) →
      rows.foldlM weightRowStep acc =
        .error "Invalid weights row from weights_sql" := by
  intro rows
  induction rows with
  | nil =>
      intro acc hbad
      obtain ⟨r, hr, _⟩ := hbad
      cases hr
  | cons r rest ih =>
      intro acc hbad
      rw [List.foldlM_cons]
      cases hr1 : r.1 with
      | none => simp [weightRowStep, hr1, Bind.bind, Except.bind]
      | some rid =>
          cases hr2 : r.2 with
          | none => simp [weightRowStep, hr1, hr2, Bind.bind, Except.bind]
          | some w =>
              obtain ⟨r0, hr0, hbad0⟩ := hbad
              cases hr0 with
              | head =>
                  rw [hr1, hr2] at hbad0
                  rcases hbad0 with h | h <;> cases h
              | tail _ hm =>
                  rw [weightRowStep, hr1, hr2]
                  simp only [Bind.bind, Except.bind]
                  exact ih _ ⟨r0, hm, hbad0⟩

theorem getD_default_irrel :
    ∀ (l : List Int) (n : Nat) (d d' : Int), n < l.length →
      l.getD n d = l.getD n d' := by
  intro l
  induction l with
  | nil => intro n d d' hn; cases hn
  | cons a as ih =>
      intro n d d' hn
      cases n with
      | zero => rfl
      | succ m =>
          have : m < as.length := by simpa using Nat.lt_of_succ_lt_succ hn
          exact ih m d d' this

theorem argminIdx_min :
    ∀ (totals : List Int) (j : Nat), j < totals.length →
      totals.getD (argminIdx totals) 0 ≤ totals.getD j 0 := by
  intro totals
  induction totals with
  | nil => intro j hj; cases hj
  | cons t ts ih =>
      intro j hj
      rw [argminIdx]
      split
      · rename_i hcond
        by_cases hts : ts = []
        · rw [hts] at hcond
          simp [List.getD] at hcond
        · have hlt : argminIdx ts < ts.length := argminIdx_lt ts hts
          have hsw : ts.getD (argminIdx ts) t = ts.getD (argminIdx ts) 0 :=
            getD_default_irrel ts _ t 0 hlt
          have hcond' : ts.getD (argminIdx ts) 0 < t := by
            rw [← hsw]
            exact hcond
          cases j with
          | zero => exact le_of_lt hcond'
          | succ j' =>
              have hj' : j' < ts.length := by
                simpa using Nat.lt_of_succ_lt_succ hj
              exact ih j' hj'
      · rename_i hcond
        cases j with
        | zero => exact le_refl _
        | succ j' =>
            have hj' : j' < ts.length := by
              simpa using Nat.lt_of_succ_lt_succ hj
            have hts : ts ≠ [] := by
              intro h
              rw [h] at hj'
              cases hj'
            have hlt : argminIdx ts < ts.length := argminIdx_lt ts hts
            have hsw : ts.getD (argminIdx ts) t = ts.getD (argminIdx ts) 0 :=
              getD_default_irrel ts _ t 0 hlt
            have h1 : t ≤ ts.getD (argminIdx ts) 0 := by
              rw [← hsw]
              exact le_of_not_lt hcond
            exact le_trans h1 (ih j' hj')

theorem argminIdx_first :
    ∀ (totals : List Int) (j : Nat), j < argminIdx totals →
      totals.getD (argminIdx totals) 0 < totals.getD j 0 := by
  intro totals
  induction totals with
  | nil => intro j hj; rw [argminIdx] at hj; cases hj
  | cons t ts ih =>
      intro j hj
      rw [argminIdx]
      rw [argminIdx] at hj
      split at hj
      · rename_i hcond
        rw [if_pos hcond]
        by_cases hts : ts = []
        · rw [hts] at hcond
          simp [List.getD] at hcond
        · have hlt : argminIdx ts < ts.length := argminIdx_lt ts hts
          have hsw : ts.getD (argminIdx ts) t = ts.getD (argminIdx ts) 0 :=
            getD_default_irrel ts _ t 0 hlt
          cases j with
          | zero =>
              have : ts.getD (argminIdx ts) 0 < t := by
                rw [← hsw]
                exact hcond
              exact this
          | succ j' =>
              exact ih j' (Nat.lt_of_succ_lt_succ hj)
      · cases hj

theorem intLookupD_not_mem (wm : List (Int × Int)) (i : Int)
    (h : ∀ p ∈ wm, p.1 ≠ i) : intLookupD wm i 1 = 1 := by
  induction wm with
  | nil => rfl
  | cons p rest ih =>
      rw [intLookupD, List.find?]
      have hp : p.1 ≠ i := h p (List.mem_cons_self p rest)
      rw [show (decide (p.1 = i)) = false from decide_eq_false hp]
      exact ih (fun q hq => h q (List.mem_cons_of_mem p hq))

theorem insDesc_pairwise (x : Int × Int) :
    ∀ (l : List (Int × Int)),
      l.Pairwise (fun a b => b.2 ≤ a.2) →
      (insDesc x l).Pairwise (fun a b => b.2 ≤ a.2) := by
  intro l
  induction l with
  | nil => intro _; exact List.pairwise_singleton _ x
  | cons y ys ih =>
      intro h
      rw [List.pairwise_cons] at h
      obtain ⟨hy, hys⟩ := h
      rw [insDesc]
      split
      · rename_i hge
        rw [List.pairwise_cons]
        refine ⟨?_, ih hys⟩
        intro b hb
        have hb2 : b ∈ x :: ys := (insDesc_perm x ys).mem_iff.mp hb
        rcases List.mem_cons.mp hb2 with hbx | hbm
        · rw [hbx]
          exact hge
        · exact hy b hbm
      · rename_i hlt
        rw [List.pairwise_cons]
        refine ⟨?_, List.pairwise_cons.mpr ⟨hy, hys⟩⟩
        intro b hb
        cases hb with
        | head => exact le_of_lt (lt_of_not_ge hlt)
        | tail _ hbm => exact le_trans (hy b hbm) (le_of_lt (lt_of_not_ge hlt))

theorem insDesc_filter (x : Int × Int) (w : Int) :
    ∀ (l : List (Int × Int)), l.Pairwise (fun a b => b.2 ≤ a.2) →
      (insDesc x l).filter (fun a => a.2 = w) =
        l.filter (fun a => a.2 = w) ++ (if x.2 = w then [x] else []) := by
  intro l
  induction l with
  | nil =>
      intro _
      by_cases hx : x.2 = w
      · simp [insDesc, List.filter, hx]
      · simp [insDesc, List.filter, hx]
  | cons y ys ih =>
      intro h
      rw [List.pairwise_cons] at h
      obtain ⟨hy, hys⟩ := h
      rw [insDesc]
      split
      · rename_i hge
        by_cases hyw : y.2 = w
        · simp [List.filter_cons, hyw, ih hys]
        · simp [List.filter_cons, hyw, ih hys]
      · rename_i hlt
        by_cases hx : x.2 = w
        · have hnil : (y :: ys).filter (fun a => decide (a.2 = w)) = [] := by
            rw [List.filter_eq_nil_iff]
            intro a ha
            rcases List.mem_cons.mp ha with hay | ham
            · subst hay
              have : a.2 < x.2 := lt_of_not_ge hlt
              simp only [decide_eq_true_eq]
              intro haw
              rw [haw, hx] at this
              exact lt_irrefl w this
            · have h1 : a.2 ≤ y.2 := hy a ham
              have h2 : y.2 < x.2 := lt_of_not_ge hlt
              simp only [decide_eq_true_eq]
              intro haw
              have h3 : a.2 < x.2 := lt_of_le_of_lt h1 h2
              rw [haw, hx] at h3
              exact lt_irrefl w h3
          simp [List.filter_cons, hx, hnil]
        · simp [List.filter_cons, hx]

theorem sortWDFold_invariant :
    ∀ (l acc : List (Int × Int)),
      acc.Pairwise (fun a b => b.2 ≤ a.2) →
      ((l.foldl (fun a x => insDesc x a) acc).Pairwise
        (fun a b => b.2 ≤ a.2)) ∧
      (∀ w, (l.foldl (fun a x => insDesc x a) acc).filter
          (fun a => a.2 = w) =
        acc.filter (fun a => a.2 = w) ++ l.filter (fun a => a.2 = w)) := by
  intro l
  induction l with
  | nil => intro acc h; exact ⟨h, fun w => by simp⟩
  | cons x xs ih =>
      intro acc h
      rw [List.foldl_cons]
      have hins := insDesc_pairwise x acc h
      obtain ⟨hs, hf⟩ := ih (insDesc x acc) hins
      refine ⟨hs, fun w => ?_⟩
      rw [hf w, insDesc_filter x w acc h, List.append_assoc]
      by_cases hx : x.2 = w
      · simp [List.filter_cons, hx]
      · simp [List.filter_cons, hx]

theorem sortWeightDesc_sorted (l : List (Int × Int)) :
    (sortWeightDesc l).Pairwise (fun a b => b.2 ≤ a.2) :=
  (sortWDFold_invariant l [] (List.Pairwise.nil)).1

theorem sortWeightDesc_stable (l : List (Int × Int)) (w : Int) :
    (sortWeightDesc l).filter (fun a => a.2 = w) =
      l.filter (fun a => a.2 = w) := by
  have h := (sortWDFold_invariant l [] (List.Pairwise.nil)).2 w
  simpa [sortWeightDesc] using h

/-- **C3.** The weighted sharding strategy: for a root configured with
`shard.count > 1`, `strategy = weighted` and a truthy `weights_sql`,
(a) a `weights_sql` row whose id or weight Python's `int()` cannot coerce
makes `build_selections` raise a `ValueError` — the row is never skipped;
(b) otherwise the shards are the greedy assignment over the identifiers
sorted by weight descending (stably), identifiers absent from the weight
map defaulting to weight 1;
(c) the sort is a permutation of the weighted items, its weights are
descending, and it is stable (for each weight, the items of that weight
keep their input order);
(d) each greedy step appends the identifier to the shard whose running
total is least — the first such shard on ties — and bumps that total. -/
theorem selections_c3 (db : SelDb) (root : SelRoot) (sc : ShardCfg)
    (wsql : String) (hsc : root.shard = some sc) (hcount : sc.count > 1)
    (hstrat : sc.strategy = "weighted") (hwsql : sc.weightsSql = some wsql)
    (hne : wsql ≠ "") :
    ((∃ r ∈ db.runPairs wsql, r.1 = none ∨ r.2 = none) →
      ∀ ids, buildShards db root ids =
        .error "Invalid weights row from weights_sql") ∧
    (∀ wm, buildWeightMap (db.runPairs wsql) = .ok wm →
      ∀ ids, buildShards db root ids =
        .ok (weightedShards sc.count.toNat
          (sortWeightDesc (ids.map (fun i => (i, intLookupD wm i 1)))))) ∧
    (∀ (wm : List (Int × Int)) (i : Int),
      (∀ p ∈ wm, p.1 ≠ i) → intLookupD wm i 1 = 1) ∧
    (∀ items : List (Int × Int),
      (sortWeightDesc items).Perm items ∧
      (sortWeightDesc items).Pairwise (fun a b => b.2 ≤ a.2) ∧
      (∀ w, (sortWeightDesc items).filter (fun a => a.2 = w) =
        items.filter (fun a => a.2 = w))) ∧
    (∀ totals : List Int, totals ≠ [] →
      argminIdx totals < totals.length ∧
      (∀ j, j < totals.length →
        totals.getD (argminIdx totals) 0 ≤ totals.getD j 0) ∧
      (∀ j, j < argminIdx totals →
        totals.getD (argminIdx totals) 0 < totals.getD j 0)) ∧
    (∀ (state : List (List Int) × List Int) (item : Int × Int),
      greedyStep state item =
        (appendAt (argminIdx state.2) item.1 state.1,
         addAt (argminIdx state.2) item.2 state.2)) := by
  have hguard : sc.strategy = "weighted" ∧ sc.weightsSql ≠ none ∧
      sc.weightsSql ≠ some "" := by
    refine ⟨hstrat, ?_, ?_⟩
    · rw [hwsql]; simp
    · rw [hwsql]; simpa using hne
  refine ⟨?_, ?_, fun wm i h => intLookupD_not_mem wm i h,
    fun items => ⟨sortWeightDesc_perm items, sortWeightDesc_sorted items,
      fun w => sortWeightDesc_stable items w⟩,
    fun totals hne' => ⟨argminIdx_lt totals hne',
      fun j hj => argminIdx_min totals j hj,
      fun j hj => argminIdx_first totals j hj⟩,
    fun state item => rfl⟩
  · intro hbad ids
    unfold buildShards
    rw [hsc]
    dsimp only
    rw [if_pos hcount, if_pos hguard, hwsql]
    simp only [Bind.bind, Except.bind]
    rw [show buildWeightMap (db.runPairs wsql) =
      .error "Invalid weights row from weights_sql" from
      buildWeightMap_error (db.runPairs wsql) [] hbad]
  · intro wm hwm ids
    unfold buildShards
    rw [hsc]
    dsimp only
    rw [if_pos hcount, if_pos hguard, hwsql]
    simp only [Bind.bind, Except.bind]
    rw [hwm]

/-- Oracle for the C3 witness: `weights_sql` yields one coercible row. -/
def c3SelDb : SelDb :=
  ⟨fun _ => [], fun _ _ => [], fun _ _ => [], fun _ => [(some 1, some 5)],
   fun _ _ => false, fun _ _ _ => false, fun _ _ => []⟩

/-- **C3, witness.** The weighted-sharding theorem at a concrete root
(`count = 2`, `strategy = weighted`, `weights_sql = "SELECT w"`). -/
theorem selections_c3_witness :
    ((⟨"stores", "store", .idList [1, 2], [],
        some ⟨2, "weighted", some "SELECT w"⟩⟩ : SelRoot).shard =
      some ⟨2, "weighted", some "SELECT w"⟩) ∧
    ((2 : Int) > 1) ∧
    (("weighted" : String) = "weighted") ∧
    (("SELECT w" : String) ≠ "") ∧
    (((∃ r ∈ c3SelDb.runPairs "SELECT w", r.1 = none ∨ r.2 = none) →
      ∀ ids, buildShards c3SelDb
          ⟨"stores", "store", .idList [1, 2], [],
            some ⟨2, "weighted", some "SELECT w"⟩⟩ ids =
        .error "Invalid weights row from weights_sql") ∧
    (∀ wm, buildWeightMap (c3SelDb.runPairs "SELECT w") = .ok wm →
      ∀ ids, buildShards c3SelDb
          ⟨"stores", "store", .idList [1, 2], [],
            some ⟨2, "weighted", some "SELECT w"⟩⟩ ids =
        .ok (weightedShards (2 : Int).toNat
          (sortWeightDesc (ids.map (fun i => (i, intLookupD wm i 1)))))) ∧
    (∀ (wm : List (Int × Int)) (i : Int),
      (∀ p ∈ wm, p.1 ≠ i) → intLookupD wm i 1 = 1) ∧
    (∀ items : List (Int × Int),
      (sortWeightDesc items).Perm items ∧
      (sortWeightDesc items).Pairwise (fun a b => b.2 ≤ a.2) ∧
      (∀ w, (sortWeightDesc items).filter (fun a => a.2 = w) =
        items.filter (fun a => a.2 = w))) ∧
    (∀ totals : List Int, totals ≠ [] →
      argminIdx totals < totals.length ∧
      (∀ j, j < totals.length →
        totals.getD (argminIdx totals) 0 ≤ totals.getD j 0) ∧
      (∀ j, j < argminIdx totals →
        totals.getD (argminIdx totals) 0 < totals.getD j 0)) ∧
    (∀ (state : List (List Int) × List Int) (item : Int × Int),
      greedyStep state item =
        (appendAt (argminIdx state.2) item.1 state.1,
         addAt (argminIdx state.2) item.2 state.2))) :=
  ⟨rfl, by decide, rfl, by decide,
    selections_c3 c3SelDb
      ⟨"stores", "store", .idList [1, 2], [],
        some ⟨2, "weighted", some "SELECT w"⟩⟩
      ⟨2, "weighted", some "SELECT w"⟩ "SELECT w"
      rfl (by decide) rfl rfl (by decide)⟩

/-! ## Redaction (`dbutil/neuter.py`: `neuter_data`)

A destination table is its column catalog (column name → SQL
`character_maximum_length`, which the server guarantees positive when
present) and its rows; a row maps column names to SQL values (`NULL`, text,
or integer).  `ILIKE` is the SQL pattern match — `%` any sequence, `_` one
character, case-insensitive (characters are compared lowercased; dbslice
passes patterns built as `value + '%'`).  Each `UPDATE` is translated to a
map over the table's rows; commits persist even when a later rule raises,
so the runner returns the committed state together with the optional
error. -/

inductive Value where
  | vnull
  | vstr (s : String)
  | vint (n : Int)
  deriving DecidableEq, Repr

/-- The `%` step of `LIKE`: does `f` accept some suffix of the string? -/
def likeStar (f : List Char → Bool) : List Char → Bool
  | [] => f []
  | c :: s => f (c :: s) || likeStar f s

/-- SQL `LIKE` matching over lowercased character lists: `%` matches any
sequence (the rest of the pattern must match some suffix), `_` exactly one
character, anything else itself. -/
def likeM : List Char → List Char → Bool
  | [], s => s.isEmpty
  | a :: p, s =>
      if a = '%' then likeStar (likeM p) s
      else
        match s with
        | [] => false
        | c :: s' => if a = '_' then likeM p s' else (a == c && likeM p s')

/-- `x ILIKE pat`: case-insensitive `LIKE`. -/
def ilike (pat s : String) : Bool :=
  likeM (pat.data.map Char.toLower) (s.data.map Char.toLower)

/-- Python `str()` of a YAML rule value. -/
def valueStr : Value → String
  | .vnull => "None"
  | .vstr s => s
  | .vint n => toString n

/-- SQL `left(x, n)` for the positive `character_maximum_length`. -/
def leftTrunc (maxLen : Option Nat) (x : String) : String :=
  match maxLen with
  | none => x
  | some n => String.mk (x.data.take n)

/-- The value-level effect of one `prefix` `UPDATE` on one column value:
`SET c = left(sval || c, N)` guarded by
`c IS NOT NULL AND c <> '' [AND c NOT ILIKE skip]* AND c NOT ILIKE sval%`.
Only text values satisfy the guard. -/
def pfxTransform (sval : String) (maxLen : Option Nat)
    (skips : List String) (v : Value) : Value :=
  match v with
  | .vstr s =>
      if s ≠ "" ∧ (∀ sp ∈ skips, ¬ ilike sp s = true) ∧
          ¬ ilike (sval ++ "%") s = true then
        .vstr (leftTrunc maxLen (sval ++ s))
      else .vstr s
  | v => v

structure NShard where
  column : String
  modulo : Option Int
  deriving DecidableEq, Repr

structure NRule where
  column : String
  strategy : String
  value : Option Value
  skipPatterns : List String
  shard : Option NShard
  deriving DecidableEq, Repr

structure NTable where
  cols : List (String × Option Nat)
  rows : List (List (String × Value))
  deriving DecidableEq, Repr

def columnExists (tbl : NTable) (c : String) : Bool :=
  (alookup tbl.cols c).isSome

/-- `modulo = int(shard.modulo or shard.parts or parallel); if modulo < 1:
modulo = parallel`. -/
def effModulo (sh : NShard) (parallel : Int) : Int :=
  let m := sh.modulo.getD parallel
  if m < 1 then parallel else m

/-- Update column `c` of a row with `f` (every binding of that column). -/
def rowSetCol (c : String) (f : Value → Value)
    (row : List (String × Value)) : List (String × Value) :=
  row.map (fun p => (p.1, if p.1 = c then f p.2 else p.2))

def rowShardIdx (row : List (String × Value)) (shardCol : String) :
    Option Int :=
  match alookup row shardCol with
  | some (.vint k) => some k
  | _ => none

/-- The `(shard_col % modulo) = i` predicate of the shard-`i` `UPDATE`
(Postgres `%` truncates toward zero, `Int.tmod`; a NULL or non-integer
shard key satisfies no shard). -/
def rowShardMatch (row : List (String × Value)) (shardCol : String)
    (eff i : Int) : Bool :=
  match rowShardIdx row shardCol with
  | some k => k.tmod eff = i
  | none => false

/-- The sharded variant of a rule's `UPDATE`: one `UPDATE .. AND
(shard_col % modulo) = i` per shard index, serialized (the tasks write
disjoint row sets whenever no rule writes a shard key). -/
def shardedUpdate (eff : Nat) (shardCol : String) (c : String)
    (f : Value → Value) (rows : List (List (String × Value))) :
    List (List (String × Value)) :=
  (List.range eff).foldl
    (fun rs i => rs.map (fun row =>
      if rowShardMatch row shardCol (eff : Int) (i : Int) then
        rowSetCol c f row
      else row))
    rows

/-- One rule of `neuter_data` applied to one destination table.  A rule
with an empty column/strategy, a `None` value, or a missing column is
skipped; a `prefix`/`replace` rule updates rows (sharded when a shard
config is present and `parallel > 1`, which requires the shard column to
exist); any other strategy raises `ValueError`. -/
def applyRule (parallel : Int) (tbl : NTable) (rule : NRule) :
    Except String NTable :=
  if rule.column = "" ∨ rule.strategy = "" ∨ rule.value = none then .ok tbl
  else if ¬ columnExists tbl rule.column then .ok tbl
  else if rule.strategy = "prefix" then
    let sval := valueStr (rule.value.getD .vnull)
    let maxLen := (alookup tbl.cols rule.column).join
    let f := pfxTransform sval maxLen rule.skipPatterns
    match rule.shard with
    | some sh =>
        if parallel > 1 then
          if ¬ columnExists tbl sh.column then
            .error ("shard column " ++ sh.column ++ " does not exist")
          else
            .ok ⟨tbl.cols, shardedUpdate (effModulo sh parallel).toNat
              sh.column rule.column f tbl.rows⟩
        else .ok ⟨tbl.cols, tbl.rows.map (rowSetCol rule.column f)⟩
    | none => .ok ⟨tbl.cols, tbl.rows.map (rowSetCol rule.column f)⟩
  else if rule.strategy = "replace" then
    let valv := rule.value.getD .vnull
    match rule.shard with
    | some sh =>
        if parallel > 1 then
          if ¬ columnExists tbl sh.column then
            .error ("shard column " ++ sh.column ++ " does not exist")
          else
            .ok ⟨tbl.cols, shardedUpdate (effModulo sh parallel).toNat
              sh.column rule.column (fun _ => valv) tbl.rows⟩
        else
          .ok ⟨tbl.cols, tbl.rows.map
            (rowSetCol rule.column (fun _ => valv))⟩
    | none =>
        .ok ⟨tbl.cols, tbl.rows.map (rowSetCol rule.column (fun _ => valv))⟩
  else .error ("Unsupported neuter strategy: " ++ rule.strategy)

/-- The rules of one table, in order; each successful rule's `UPDATE` is
committed before the next begins, so on an error the updates so far
persist. -/
def applyRulesP (parallel : Int) (tbl : NTable) :
    List NRule → NTable × Option String
  | [] => (tbl, none)
  | r :: rest =>
      match applyRule parallel tbl r with
      | .error e => (tbl, some e)
      | .ok tbl' => applyRulesP parallel tbl' rest

/-- `neuter_data`: process each `neuter.targets` table in order (restricted
by `only_table`, skipping tables absent from the destination); on a raised
error the committed updates persist and processing stops. -/
def neuterData (parallel : Int)
    (targets : List (String × List NRule)) (onlyTable : Option String)
    (st : List (String × NTable)) :
    List (String × NTable) × Option String :=
  match targets with
  | [] => (st, none)
  | (t, rules) :: rest =>
      if (match onlyTable with
          | some o => decide (t ≠ o)
          | none => false) then
        neuterData parallel rest onlyTable st
      else
        match alookup st t with
        | none => neuterData parallel rest onlyTable st
        | some tbl =>
            match applyRulesP parallel tbl rules with
            | (tbl', some e) => (aset st t tbl', some e)
            | (tbl', none) =>
                neuterData parallel rest onlyTable (aset st t tbl')

theorem aset_self {α : Type} (m : List (String × α)) (k : String) (v : α)
    (h : alookup m k = some v) : aset m k v = m := by
  induction m with
  | nil => cases h
  | cons p rest ih =>
      obtain ⟨k', v'⟩ := p
      by_cases hk : k' = k
      · subst hk
        rw [alookup, if_pos rfl] at h
        have hv : v' = v := Option.some.inj h
        rw [aset, if_pos rfl, hv]
      · rw [alookup, if_neg hk] at h
        rw [aset, if_neg hk, ih h]

theorem applyRule_cols (parallel : Int) (tbl : NTable) (r : NRule)
    (tbl2 : NTable) (h : applyRule parallel tbl r = .ok tbl2) :
    tbl2.cols = tbl.cols := by
  unfold applyRule at h
  repeat' split at h
  all_goals (cases h <;> rfl)

theorem applyRulesP_cols (parallel : Int) :
    ∀ (l : List NRule) (tbl tbl' : NTable) (e : Option String),
      applyRulesP parallel tbl l = (tbl', e) → tbl'.cols = tbl.cols := by
  intro l
  induction l with
  | nil =>
      intro tbl tbl' e h
      rw [applyRulesP] at h
      cases h
      rfl
  | cons r rest ih =>
      intro tbl tbl' e h
      rw [applyRulesP] at h
      cases hr : applyRule parallel tbl r with
      | error e' =>
          rw [hr] at h
          dsimp only at h
          cases h
          rfl
      | ok tbl1 =>
          rw [hr] at h
          dsimp only at h
          rw [ih tbl1 tbl' e h, applyRule_cols parallel tbl r tbl1 hr]

theorem applyRulesP_append (parallel : Int) :
    ∀ (pre suf : List NRule) (tbl tbl' : NTable),
      applyRulesP parallel tbl pre = (tbl', none) →
      applyRulesP parallel tbl (pre ++ suf) =
        applyRulesP parallel tbl' suf := by
  intro pre
  induction pre with
  | nil =>
      intro suf tbl tbl' h
      rw [applyRulesP] at h
      cases h
      rfl
  | cons r rest ih =>
      intro suf tbl tbl' h
      rw [applyRulesP] at h
      rw [List.cons_append, applyRulesP]
      cases hr : applyRule parallel tbl r with
      | error e' =>
          rw [hr] at h
          dsimp only at h
          cases h
      | ok tbl1 =>
          rw [hr] at h
          dsimp only at h
          dsimp only
          exact ih suf tbl1 tbl' h

/-- **C9, counterexample.** `neuter_data` validates rule strategies lazily,
while it walks the rule list: a `replace` rule preceding the invalid rule
has already committed its `UPDATE` when the `ValueError` is raised, so the
destination is mutated — the claimed "abort before any mutation" fails. -/
theorem neuter_c9_counterexample :
    neuterData 1
        [("customer",
          [⟨"password", "replace", some (.vstr "HASHED2"), [], none⟩,
           ⟨"email", "scramble", some (.vstr "x"), [], none⟩])]
        none
        [("customer", ⟨[("password", none), ("email", none)],
          [[("password", .vstr "old"), ("email", .vstr "z")]]⟩)] =
      ([("customer", ⟨[("password", none), ("email", none)],
          [[("password", .vstr "HASHED2"), ("email", .vstr "z")]]⟩)],
       some "Unsupported neuter strategy: scramble") ∧
    ([("customer", (⟨[("password", none), ("email", none)],
        [[("password", Value.vstr "HASHED2"),
          ("email", Value.vstr "z")]]⟩ : NTable))] ≠
      [("customer", (⟨[("password", none), ("email", none)],
        [[("password", Value.vstr "old"),
          ("email", Value.vstr "z")]]⟩ : NTable))]) := by
  refine ⟨rfl, by decide⟩

/-- **C9 (amended).** A rule whose strategy is neither `prefix` nor
`replace` makes `neuter_data` raise `ValueError` *when it is reached*
(nonempty column and strategy, non-`None` value, existing column in an
existing target table); the offending rule itself commits nothing, and if
it is reached before any updating rule the destination is unchanged — but
updates committed by earlier rules of the same invocation persist, so the
abort is not "before any mutation". -/
theorem neuter_c9 (parallel : Int) (st : List (String × NTable))
    (t : String) (tbl : NTable) (rule : NRule) (rules : List NRule)
    (hcol : rule.column ≠ "") (hs1 : rule.strategy ≠ "")
    (hs2 : rule.strategy ≠ "prefix") (hs3 : rule.strategy ≠ "replace")
    (hval : rule.value ≠ none)
    (hexists : columnExists tbl rule.column = true) :
    applyRule parallel tbl rule =
      .error ("Unsupported neuter strategy: " ++ rule.strategy) ∧
    (∀ (pre : List NRule) (tbl' : NTable),
      applyRulesP parallel tbl pre = (tbl', none) →
      applyRulesP parallel tbl (pre ++ rule :: rules) =
        (tbl', some ("Unsupported neuter strategy: " ++ rule.strategy))) ∧
    (alookup st t = some tbl →
      neuterData parallel [(t, rule :: rules)] none st =
        (st, some ("Unsupported neuter strategy: " ++ rule.strategy))) := by
  have herr : applyRule parallel tbl rule =
      .error ("Unsupported neuter strategy: " ++ rule.strategy) := by
    unfold applyRule
    rw [if_neg (by simp [hcol, hs1, hval]), if_neg (by simp [hexists]),
      if_neg hs2, if_neg hs3]
  refine ⟨herr, ?_, ?_⟩
  · intro pre tbl' hpre
    rw [applyRulesP_append parallel pre (rule :: rules) tbl tbl' hpre]
    have hex' : columnExists tbl' rule.column = true := by
      rw [columnExists, applyRulesP_cols parallel pre tbl tbl' none hpre]
      exact hexists
    have herr' : applyRule parallel tbl' rule =
        .error ("Unsupported neuter strategy: " ++ rule.strategy) := by
      unfold applyRule
      rw [if_neg (by simp [hcol, hs1, hval]), if_neg (by simp [hex']),
        if_neg hs2, if_neg hs3]
    rw [applyRulesP, herr']
  · intro hlook
    rw [neuterData, hlook]
    dsimp only
    rw [applyRulesP, herr]
    dsimp only
    rw [aset_self st t tbl hlook]
    simp

/-- **C9, witness.** The amended theorem at a concrete invalid rule with no
preceding rules: the run raises and the destination is unchanged. -/
theorem neuter_c9_witness :
    ("email" : String) ≠ "" ∧ ("scramble" : String) ≠ "" ∧
    ("scramble" : String) ≠ "prefix" ∧ ("scramble" : String) ≠ "replace" ∧
    (some (Value.vstr "x") ≠ none) ∧
    columnExists ⟨[("email", none)], [[("email", Value.vstr "z")]]⟩
      "email" = true ∧
    (applyRule 1 ⟨[("email", none)], [[("email", Value.vstr "z")]]⟩
        ⟨"email", "scramble", some (.vstr "x"), [], none⟩ =
      .error "Unsupported neuter strategy: scramble" ∧
    (∀ (pre : List NRule) (tbl' : NTable),
      applyRulesP 1 ⟨[("email", none)], [[("email", Value.vstr "z")]]⟩
          pre = (tbl', none) →
      applyRulesP 1 ⟨[("email", none)], [[("email", Value.vstr "z")]]⟩
          (pre ++ ⟨"email", "scramble", some (.vstr "x"), [], none⟩ ::
            []) =
        (tbl', some "Unsupported neuter strategy: scramble")) ∧
    (alookup [("customer", (⟨[("email", none)],
        [[("email", Value.vstr "z")]]⟩ : NTable))] "customer" =
        some ⟨[("email", none)], [[("email", Value.vstr "z")]]⟩ →
      neuterData 1
          [("customer",
            [⟨"email", "scramble", some (.vstr "x"), [], none⟩])] none
          [("customer", ⟨[("email", none)],
            [[("email", Value.vstr "z")]]⟩)] =
        ([("customer", ⟨[("email", none)],
            [[("email", Value.vstr "z")]]⟩)],
         some "Unsupported neuter strategy: scramble"))) :=
  ⟨by decide, by decide, by decide, by decide, by decide, by decide,
    neuter_c9 1
      [("customer", ⟨[("email", none)], [[("email", Value.vstr "z")]]⟩)]
      "customer" ⟨[("email", none)], [[("email", Value.vstr "z")]]⟩
      ⟨"email", "scramble", some (.vstr "x"), [], none⟩ []
      (by decide) (by decide) (by decide) (by decide) (by decide)
      (by decide)⟩

/-! ## Idempotence of the redaction pass (`dbutil/neuter.py`, claim C4)

The `prefix` `UPDATE` carries a `NOT ILIKE value%` guard, so a value that
already carries the prefix (after truncation to `character_maximum_length`)
is left alone on a second pass; a `replace` `UPDATE` writes a constant.
These facts are what the first lemmas below establish.  Two `prefix` rules
on the *same* column defeat the guard of one another, which refutes the
unconditional claim. -/

theorem likeStar_self (f : List Char → Bool) (s : List Char)
    (h : f s = true) : likeStar f s = true := by
  cases s with
  | nil => exact h
  | cons c s' => simp [likeStar, h]

theorem likeStar_tail (f : List Char → Bool) (c : Char) (s : List Char)
    (h : likeStar f s = true) : likeStar f (c :: s) = true := by
  simp [likeStar, h]

theorem likeStar_top (s : List Char) :
    likeStar (likeM []) s = true := by
  induction s with
  | nil => rfl
  | cons c s' ih => exact likeStar_tail _ c s' ih

/-- A pattern `p ++ ['%']` matches any string that has `p` as a prefix. -/
theorem likeM_pref : ∀ (p s : List Char),
    likeM (p ++ ['%']) (p ++ s) = true := by
  intro p
  induction p with
  | nil =>
      intro s
      show likeStar (likeM []) s = true
      exact likeStar_top s
  | cons a p' ih =>
      intro s
      rw [List.cons_append, List.cons_append]
      by_cases ha : a = '%'
      · subst ha
        show likeStar (likeM (p' ++ ['%'])) ('%' :: (p' ++ s)) = true
        exact likeStar_tail _ '%' _ (likeStar_self _ _ (ih s))
      · by_cases hu : a = '_'
        · subst hu
          show likeM (p' ++ ['%']) (p' ++ s) = true
          exact ih s
        · show (if a = '%' then
              likeStar (likeM (p' ++ ['%'])) (a :: (p' ++ s))
            else if a = '_' then likeM (p' ++ ['%']) (p' ++ s)
            else (a == a && likeM (p' ++ ['%']) (p' ++ s))) = true
          rw [if_neg ha, if_neg hu]
          simp [ih s]

/-- `x ILIKE v%` holds whenever `x` starts with `v` character-wise. -/
theorem ilike_pfx_append (v : String) (rest : List Char) :
    ilike (v ++ "%") (String.mk (v.data ++ rest)) = true := by
  have hlow : Char.toLower '%' = '%' := by decide
  show likeM ((v.data ++ ['%']).map Char.toLower)
      ((v.data ++ rest).map Char.toLower) = true
  rw [List.map_append, List.map_append]
  show likeM (v.data.map Char.toLower ++ [Char.toLower '%'])
      (v.data.map Char.toLower ++ rest.map Char.toLower) = true
  rw [hlow]
  exact likeM_pref _ _

/-- The value-level `prefix` update is idempotent: the `NOT ILIKE value%`
guard rejects every value it has produced (truncation included, since the
truncated value is either a full `sval ++ ·` or a prefix of `sval` that the
update maps to itself). -/
theorem pfxTransform_idem (sval : String) (maxLen : Option Nat)
    (skips : List String) (v : Value) :
    pfxTransform sval maxLen skips (pfxTransform sval maxLen skips v) =
      pfxTransform sval maxLen skips v := by
  cases v with
  | vnull => rfl
  | vint n => rfl
  | vstr s =>
      by_cases hg : s ≠ "" ∧ (∀ sp ∈ skips, ¬ ilike sp s = true) ∧
          ¬ ilike (sval ++ "%") s = true
      · have h1 : pfxTransform sval maxLen skips (.vstr s) =
            .vstr (leftTrunc maxLen (sval ++ s)) := by
          rw [pfxTransform, if_pos hg]
        rw [h1]
        cases maxLen with
        | none =>
            have hlike : ilike (sval ++ "%") (sval ++ s) = true :=
              ilike_pfx_append sval s.data
            rw [pfxTransform, if_neg (fun hc => absurd hlike hc.2.2)]
        | some n =>
            by_cases hn : sval.data.length ≤ n
            · have ht : leftTrunc (some n) (sval ++ s) =
                  String.mk (sval.data ++
                    s.data.take (n - sval.data.length)) := by
                show String.mk ((sval.data ++ s.data).take n) = _
                rw [List.take_append_eq_append_take,
                  List.take_of_length_le hn]
              have hlike : ilike (sval ++ "%")
                  (leftTrunc (some n) (sval ++ s)) = true := by
                rw [ht]
                exact ilike_pfx_append sval _
              rw [pfxTransform, if_neg (fun hc => absurd hlike hc.2.2)]
            · push_neg at hn
              have hts : (leftTrunc (some n) (sval ++ s)).data =
                  sval.data.take n := by
                show (sval.data ++ s.data).take n = _
                rw [List.take_append_eq_append_take,
                  Nat.sub_eq_zero_of_le (le_of_lt hn), List.take_zero,
                  List.append_nil]
              by_cases hg2 : leftTrunc (some n) (sval ++ s) ≠ "" ∧
                  (∀ sp ∈ skips,
                    ¬ ilike sp (leftTrunc (some n) (sval ++ s)) = true) ∧
                  ¬ ilike (sval ++ "%")
                      (leftTrunc (some n) (sval ++ s)) = true
              · rw [pfxTransform, if_pos hg2]
                congr 1
                apply String.ext
                show ((sval.data ++
                    (leftTrunc (some n) (sval ++ s)).data).take n) = _
                rw [List.take_append_eq_append_take,
                  Nat.sub_eq_zero_of_le (le_of_lt hn), List.take_zero,
                  List.append_nil, hts]
              · rw [pfxTransform, if_neg hg2]
      · have h1 : pfxTransform sval maxLen skips (.vstr s) = .vstr s := by
          rw [pfxTransform, if_neg hg]
        rw [h1, h1]

/-- The per-column value effect a non-skipped rule contributes: the
`prefix` transformation or a constant `replace`. -/
inductive VEff where
  | pfx (sval : String) (maxLen : Option Nat) (skips : List String)
  | repl (v : Value)
  deriving DecidableEq, Repr

def evalVEff : VEff → Value → Value
  | .pfx sval maxLen skips => pfxTransform sval maxLen skips
  | .repl v => fun _ => v

def VEff.isPfx : VEff → Bool
  | .pfx _ _ _ => true
  | .repl _ => false

/-- The disposition of one unsharded rule on a table with column catalog
`cols`: `none` when the rule is skipped, otherwise the updated column and
the value transformation its `UPDATE` applies (mirrors the branch order of
`applyRule`). -/
def ruleEff1 (cols : List (String × Option Nat)) (r : NRule) :
    Option (String × VEff) :=
  if r.column = "" ∨ r.strategy = "" ∨ r.value = none then none
  else if ¬ (alookup cols r.column).isSome then none
  else if r.strategy = "prefix" then
    some (r.column, .pfx (valueStr (r.value.getD .vnull))
      (alookup cols r.column).join r.skipPatterns)
  else if r.strategy = "replace" then
    some (r.column, .repl (r.value.getD .vnull))
  else none

def ruleEffs (cols : List (String × Option Nat)) (rules : List NRule) :
    List (String × VEff) :=
  rules.filterMap (ruleEff1 cols)

def rowApplyEff : Option (String × VEff) →
    (List (String × Value) → List (String × Value))
  | none => id
  | some (c, e) => rowSetCol c (evalVEff e)

def rowEffs (effs : List (String × VEff))
    (row : List (String × Value)) : List (String × Value) :=
  effs.foldl (fun row p => rowSetCol p.1 (evalVEff p.2) row) row

def effsFor (effs : List (String × VEff)) (k : String) : List VEff :=
  (effs.filter (fun p => p.1 = k)).map Prod.snd

def colCompE (l : List VEff) (v : Value) : Value :=
  l.foldl (fun v e => evalVEff e v) v

theorem applyRule_unsharded (parallel : Int) (tbl : NTable) (r : NRule)
    (hstrat : r.strategy = "prefix" ∨ r.strategy = "replace")
    (hsh : r.shard = none) :
    applyRule parallel tbl r =
      .ok ⟨tbl.cols, tbl.rows.map (rowApplyEff (ruleEff1 tbl.cols r))⟩ := by
  unfold applyRule ruleEff1
  by_cases h1 : r.column = "" ∨ r.strategy = "" ∨ r.value = none
  · rw [if_pos h1, if_pos h1]
    show Except.ok tbl = .ok ⟨tbl.cols, tbl.rows.map id⟩
    rw [List.map_id]
  · rw [if_neg h1, if_neg h1]
    by_cases h2 : ¬ columnExists tbl r.column
    · have h2' : ¬ (alookup tbl.cols r.column).isSome = true := h2
      rw [if_pos h2, if_pos h2']
      show Except.ok tbl = .ok ⟨tbl.cols, tbl.rows.map id⟩
      rw [List.map_id]
    · have h2' : ¬ ¬ (alookup tbl.cols r.column).isSome = true := h2
      rw [if_neg h2, if_neg h2']
      rcases hstrat with hs | hs
      · rw [if_pos hs, if_pos hs, hsh]
        rfl
      · have hnp : ¬ r.strategy = "prefix" := by
          rw [hs]; decide
        rw [if_neg hnp, if_neg hnp, if_pos hs, if_pos hs, hsh]
        rfl

theorem ruleEffs_cons_none (cols : List (String × Option Nat)) (r : NRule)
    (rest : List NRule) (h : ruleEff1 cols r = none) :
    ruleEffs cols (r :: rest) = ruleEffs cols rest := by
  unfold ruleEffs
  rw [List.filterMap_cons, h]

theorem ruleEffs_cons_some (cols : List (String × Option Nat)) (r : NRule)
    (rest : List NRule) (c : String) (e : VEff)
    (h : ruleEff1 cols r = some (c, e)) :
    ruleEffs cols (r :: rest) = (c, e) :: ruleEffs cols rest := by
  unfold ruleEffs
  rw [List.filterMap_cons, h]

theorem rowEffs_cons_opt (cols : List (String × Option Nat)) (r : NRule)
    (rest : List NRule) (rows : List (List (String × Value))) :
    (rows.map (rowApplyEff (ruleEff1 cols r))).map
        (rowEffs (ruleEffs cols rest)) =
      rows.map (rowEffs (ruleEffs cols (r :: rest))) := by
  rw [List.map_map]
  cases he : ruleEff1 cols r with
  | none => rw [ruleEffs_cons_none cols r rest he]; rfl
  | some ce =>
      obtain ⟨c, e⟩ := ce
      rw [ruleEffs_cons_some cols r rest c e he]
      rfl

/-- A run of valid unsharded rules never raises, keeps the column catalog,
and maps each row through the composition of the rules' effects. -/
theorem applyRulesP_eff (parallel : Int) :
    ∀ (rules : List NRule) (tbl : NTable),
      (∀ r ∈ rules, (r.strategy = "prefix" ∨ r.strategy = "replace") ∧
        r.shard = none) →
      applyRulesP parallel tbl rules =
        (⟨tbl.cols, tbl.rows.map (rowEffs (ruleEffs tbl.cols rules))⟩,
          none) := by
  intro rules
  induction rules with
  | nil =>
      intro tbl _
      rw [applyRulesP]
      have hrows : tbl.rows.map (rowEffs (ruleEffs tbl.cols [])) =
          tbl.rows := by
        show tbl.rows.map id = tbl.rows
        exact List.map_id tbl.rows
      rw [hrows]
  | cons r rest ih =>
      intro tbl h
      have hr := h r (List.mem_cons_self r rest)
      have hrest : ∀ x ∈ rest,
          (x.strategy = "prefix" ∨ x.strategy = "replace") ∧
            x.shard = none :=
        fun x hx => h x (List.mem_cons_of_mem r hx)
      rw [applyRulesP, applyRule_unsharded parallel tbl r hr.1 hr.2]
      dsimp only
      rw [ih ⟨tbl.cols, tbl.rows.map (rowApplyEff (ruleEff1 tbl.cols r))⟩
        hrest]
      dsimp only
      rw [rowEffs_cons_opt tbl.cols r rest tbl.rows]

theorem effsFor_cons_eq (c : String) (e : VEff)
    (E : List (String × VEff)) (k : String) (h : c = k) :
    effsFor ((c, e) :: E) k = e :: effsFor E k := by
  simp [effsFor, List.filter_cons, h]

theorem effsFor_cons_ne (c : String) (e : VEff)
    (E : List (String × VEff)) (k : String) (h : ¬ c = k) :
    effsFor ((c, e) :: E) k = effsFor E k := by
  simp [effsFor, List.filter_cons, h]

/-- Serial column updates decompose into an independent per-column
composition of effects. -/
theorem rowEffs_eq :
    ∀ (effs : List (String × VEff)) (row : List (String × Value)),
      rowEffs effs row =
        row.map (fun p => (p.1, colCompE (effsFor effs p.1) p.2)) := by
  intro effs
  induction effs with
  | nil =>
      intro row
      show row = row.map id
      exact (List.map_id row).symm
  | cons q rest ih =>
      obtain ⟨c, e⟩ := q
      intro row
      show rowEffs rest (rowSetCol c (evalVEff e) row) = _
      rw [ih]
      unfold rowSetCol
      rw [List.map_map]
      refine List.map_congr_left (fun p _ => ?_)
      by_cases hpc : p.1 = c
      · rw [effsFor_cons_eq c e rest p.1 hpc.symm]
        show (p.1, colCompE (effsFor rest p.1)
            (if p.1 = c then evalVEff e p.2 else p.2)) = _
        rw [if_pos hpc]
        rfl
      · rw [effsFor_cons_ne c e rest p.1 (fun h => hpc h.symm)]
        show (p.1, colCompE (effsFor rest p.1)
            (if p.1 = c then evalVEff e p.2 else p.2)) = _
        rw [if_neg hpc]

theorem evalVEff_idem (e : VEff) (v : Value) :
    evalVEff e (evalVEff e v) = evalVEff e v := by
  cases e with
  | pfx sval maxLen skips => exact pfxTransform_idem sval maxLen skips v
  | repl w => rfl

/-- A composition containing a `replace` effect is a constant function. -/
theorem colCompE_ext :
    ∀ (l : List VEff), (∃ e ∈ l, e.isPfx = false) →
      ∀ v w, colCompE l v = colCompE l w := by
  intro l
  induction l with
  | nil =>
      rintro ⟨e, he, _⟩
      cases he
  | cons a rest ih =>
      intro hrep v w
      by_cases hra : ∃ e ∈ rest, e.isPfx = false
      · exact ih hra _ _
      · rcases hrep with ⟨e, he, hpe⟩
        rcases List.mem_cons.mp he with rfl | hm
        · cases e with
          | pfx _ _ _ => simp [VEff.isPfx] at hpe
          | repl w' => rfl
        · exact absurd ⟨e, hm, hpe⟩ hra

/-- A composition with at most one `prefix` effect (and otherwise only
`replace` effects) is idempotent. -/
theorem colCompE_idem (l : List VEff)
    (hc : l.countP VEff.isPfx ≤ 1) :
    ∀ v, colCompE l (colCompE l v) = colCompE l v := by
  by_cases hrep : ∃ e ∈ l, e.isPfx = false
  · intro v
    exact colCompE_ext l hrep _ _
  · push_neg at hrep
    cases l with
    | nil => intro v; rfl
    | cons a rest =>
        cases rest with
        | nil =>
            intro v
            show evalVEff a (evalVEff a v) = evalVEff a v
            exact evalVEff_idem a v
        | cons b rest' =>
            exfalso
            have ha := hrep a (by simp)
            have hb := hrep b (by simp)
            simp only [Bool.not_eq_false] at ha hb
            have h2 : 2 ≤ (a :: b :: rest').countP VEff.isPfx := by
              rw [List.countP_cons, List.countP_cons]
              simp [ha, hb]
            omega

theorem ruleEff1_pfx_inv (cols : List (String × Option Nat)) (r : NRule)
    (c : String) (e : VEff) (h : ruleEff1 cols r = some (c, e))
    (hp : e.isPfx = true) : r.strategy = "prefix" ∧ r.column = c := by
  unfold ruleEff1 at h
  by_cases h1 : r.column = "" ∨ r.strategy = "" ∨ r.value = none
  · rw [if_pos h1] at h; cases h
  · rw [if_neg h1] at h
    by_cases h2 : ¬ (alookup cols r.column).isSome = true
    · rw [if_pos h2] at h; cases h
    · rw [if_neg h2] at h
      by_cases h3 : r.strategy = "prefix"
      · rw [if_pos h3] at h
        exact ⟨h3, congrArg Prod.fst (Option.some.inj h)⟩
      · rw [if_neg h3] at h
        by_cases h4 : r.strategy = "replace"
        · rw [if_pos h4] at h
          have he : (VEff.repl (r.value.getD .vnull)) = e :=
            congrArg Prod.snd (Option.some.inj h)
          rw [← he] at hp
          simp [VEff.isPfx] at hp
        · rw [if_neg h4] at h; cases h

/-- No rule of `rules` is a `prefix` rule on column `k` →
column `k` receives no `prefix` effect. -/
theorem effsFor_pfx_zero (cols : List (String × Option Nat)) (k : String) :
    ∀ (rules : List NRule),
      (∀ r2 ∈ rules, ¬ (r2.strategy = "prefix" ∧ r2.column = k)) →
      (effsFor (ruleEffs cols rules) k).countP VEff.isPfx = 0 := by
  intro rules
  induction rules with
  | nil => intro _; rfl
  | cons r rest ih =>
      intro hall
      have hrest := fun x hx => hall x (List.mem_cons_of_mem r hx)
      cases he : ruleEff1 cols r with
      | none => rw [ruleEffs_cons_none cols r rest he]; exact ih hrest
      | some ce =>
          obtain ⟨c, e⟩ := ce
          rw [ruleEffs_cons_some cols r rest c e he]
          by_cases hck : c = k
          · rw [effsFor_cons_eq c e _ k hck]
            cases hpe : e.isPfx with
            | true =>
                obtain ⟨hs, hc⟩ := ruleEff1_pfx_inv cols r c e he hpe
                exact absurd ⟨hs, hc.trans hck⟩
                  (hall r (List.mem_cons_self r rest))
            | false =>
                rw [List.countP_cons]
                simp only [hpe, if_false]
                exact ih hrest
          · rw [effsFor_cons_ne c e _ k hck]; exact ih hrest

/-- No two `prefix` rules on the same column → every column receives at
most one `prefix` effect. -/
theorem effsFor_pfx_count (cols : List (String × Option Nat)) (k : String) :
    ∀ (rules : List NRule),
      rules.Pairwise (fun r1 r2 => ¬ (r1.strategy = "prefix" ∧
        r2.strategy = "prefix" ∧ r1.column = r2.column)) →
      (effsFor (ruleEffs cols rules) k).countP VEff.isPfx ≤ 1 := by
  intro rules
  induction rules with
  | nil => intro _; exact Nat.zero_le 1
  | cons r rest ih =>
      intro hp
      rw [List.pairwise_cons] at hp
      obtain ⟨hr, hrest⟩ := hp
      cases he : ruleEff1 cols r with
      | none => rw [ruleEffs_cons_none cols r rest he]; exact ih hrest
      | some ce =>
          obtain ⟨c, e⟩ := ce
          rw [ruleEffs_cons_some cols r rest c e he]
          by_cases hck : c = k
          · rw [effsFor_cons_eq c e _ k hck, List.countP_cons]
            cases hpe : e.isPfx with
            | false =>
                rw [if_neg (fun h => Bool.false_ne_true h), Nat.add_zero]
                exact ih hrest
            | true =>
                obtain ⟨hs, hc⟩ := ruleEff1_pfx_inv cols r c e he hpe
                have hz : (effsFor (ruleEffs cols rest) k).countP
                    VEff.isPfx = 0 := by
                  apply effsFor_pfx_zero
                  intro r2 h2 hcon
                  exact hr r2 h2
                    ⟨hs, hcon.1, (hc.trans hck).trans hcon.2.symm⟩
                rw [hz]
                decide
          · rw [effsFor_cons_ne c e _ k hck]; exact ih hrest

/-- Re-running a table's rules (valid, unsharded, no two `prefix` rules on
one column) fixes every row. -/
theorem tblEff_idem (cols : List (String × Option Nat))
    (rules : List NRule)
    (hpair : rules.Pairwise (fun r1 r2 => ¬ (r1.strategy = "prefix" ∧
      r2.strategy = "prefix" ∧ r1.column = r2.column)))
    (rows : List (List (String × Value))) :
    (rows.map (rowEffs (ruleEffs cols rules))).map
        (rowEffs (ruleEffs cols rules)) =
      rows.map (rowEffs (ruleEffs cols rules)) := by
  rw [List.map_map]
  refine List.map_congr_left (fun row _ => ?_)
  show rowEffs (ruleEffs cols rules) (rowEffs (ruleEffs cols rules) row) =
    rowEffs (ruleEffs cols rules) row
  rw [rowEffs_eq, rowEffs_eq, List.map_map]
  refine List.map_congr_left (fun p _ => ?_)
  show (p.1, colCompE (effsFor (ruleEffs cols rules) p.1)
      (colCompE (effsFor (ruleEffs cols rules) p.1) p.2)) = _
  exact congrArg (fun v => (p.1, v))
    (colCompE_idem _ (effsFor_pfx_count cols p.1 rules hpair) p.2)

/-- The `only_table` skip test of `neuter_data` (skip `t` when an
`only_table` restriction names a different table). -/
def skipT (onlyTable : Option String) (t : String) : Bool :=
  match onlyTable with
  | some o => decide (t ≠ o)
  | none => false

theorem neuterData_cons_skip (parallel : Int) (t : String)
    (rules : List NRule) (rest : List (String × List NRule))
    (onlyTable : Option String)
    (h : skipT onlyTable t = true) :
    ∀ st, neuterData parallel ((t, rules) :: rest) onlyTable st =
      neuterData parallel rest onlyTable st := by
  intro st
  rw [neuterData.eq_def]
  dsimp only
  split
  · rfl
  · rename_i hc
    exact absurd h hc

theorem neuterData_cons_none (parallel : Int) (t : String)
    (rules : List NRule) (rest : List (String × List NRule))
    (onlyTable : Option String) (st : List (String × NTable))
    (h1 : ¬ skipT onlyTable t = true)
    (h2 : alookup st t = none) :
    neuterData parallel ((t, rules) :: rest) onlyTable st =
      neuterData parallel rest onlyTable st := by
  rw [neuterData.eq_def]
  dsimp only
  split
  · rename_i hc
    exact absurd hc h1
  · rw [h2]

theorem neuterData_cons_some (parallel : Int) (t : String)
    (rules : List NRule) (rest : List (String × List NRule))
    (onlyTable : Option String) (st : List (String × NTable))
    (tbl : NTable)
    (h1 : ¬ skipT onlyTable t = true)
    (h2 : alookup st t = some tbl) :
    neuterData parallel ((t, rules) :: rest) onlyTable st =
      (match applyRulesP parallel tbl rules with
       | (tbl', some e) => (aset st t tbl', some e)
       | (tbl', none) =>
           neuterData parallel rest onlyTable (aset st t tbl')) := by
  rw [neuterData.eq_def]
  dsimp only
  split
  · rename_i hc
    exact absurd hc h1
  · rw [h2]

/-- `neuter_data` never touches a table outside its target list. -/
theorem neuterData_frame (parallel : Int) (onlyTable : Option String) :
    ∀ (targets : List (String × List NRule))
      (st : List (String × NTable)) (n : String),
      n ∉ targets.map Prod.fst →
      alookup (neuterData parallel targets onlyTable st).1 n =
        alookup st n := by
  intro targets
  induction targets with
  | nil => intro st n _; rfl
  | cons tr rest ih =>
      obtain ⟨t, rules⟩ := tr
      intro st n hn
      rw [List.map_cons, List.mem_cons] at hn
      push_neg at hn
      obtain ⟨hnt, hnr⟩ := hn
      by_cases hsk : skipT onlyTable t = true
      · rw [neuterData_cons_skip parallel t rules rest onlyTable hsk st]
        exact ih st n hnr
      · cases hlk : alookup st t with
        | none =>
            rw [neuterData_cons_none parallel t rules rest onlyTable st
              hsk hlk]
            exact ih st n hnr
        | some tbl =>
            rw [neuterData_cons_some parallel t rules rest onlyTable st
              tbl hsk hlk]
            cases hap : applyRulesP parallel tbl rules with
            | mk tbl' err =>
                cases err with
                | none =>
                    dsimp only
                    rw [ih (aset st t tbl') n hnr]
                    exact alookup_aset_other st t n tbl' hnt
                | some e =>
                    dsimp only
                    exact alookup_aset_other st t n tbl' hnt

/-- The inductive core of the idempotence claim: with pairwise-distinct
target names, only valid unsharded rules, and no two `prefix` rules on one
column per table, a `neuter_data` run raises nothing and a second run over
its output is the identity. -/
theorem neuterData_idem_aux (parallel : Int) (onlyTable : Option String) :
    ∀ (targets : List (String × List NRule))
      (st : List (String × NTable)),
      (targets.map Prod.fst).Nodup →
      (∀ tr ∈ targets, ∀ r ∈ tr.2,
        (r.strategy = "prefix" ∨ r.strategy = "replace") ∧
          r.shard = none) →
      (∀ tr ∈ targets, tr.2.Pairwise (fun r1 r2 =>
        ¬ (r1.strategy = "prefix" ∧ r2.strategy = "prefix" ∧
           r1.column = r2.column))) →
      (neuterData parallel targets onlyTable st).2 = none ∧
      neuterData parallel targets onlyTable
          (neuterData parallel targets onlyTable st).1 =
        ((neuterData parallel targets onlyTable st).1, none) := by
  intro targets
  induction targets with
  | nil => intro st _ _ _; exact ⟨rfl, rfl⟩
  | cons tr rest ih =>
      intro st hnd hval hpair
      obtain ⟨t, rules⟩ := tr
      rw [List.map_cons, List.nodup_cons] at hnd
      have hnt : t ∉ rest.map Prod.fst := hnd.1
      have hnd' := hnd.2
      have hval' := fun x hx => hval x (List.mem_cons_of_mem _ hx)
      have hpair' := fun x hx => hpair x (List.mem_cons_of_mem _ hx)
      have hvr : ∀ r ∈ rules,
          (r.strategy = "prefix" ∨ r.strategy = "replace") ∧
            r.shard = none :=
        hval (t, rules) (List.mem_cons_self _ _)
      have hpr := hpair (t, rules) (List.mem_cons_self _ _)
      by_cases hsk : skipT onlyTable t = true
      · rw [neuterData_cons_skip parallel t rules rest onlyTable hsk st]
        rw [neuterData_cons_skip parallel t rules rest onlyTable hsk
          (neuterData parallel rest onlyTable st).1]
        exact ih st hnd' hval' hpair'
      · cases hlk : alookup st t with
        | none =>
            rw [neuterData_cons_none parallel t rules rest onlyTable st
              hsk hlk]
            have hlk2 : alookup
                (neuterData parallel rest onlyTable st).1 t = none := by
              rw [neuterData_frame parallel onlyTable rest st t hnt]
              exact hlk
            rw [neuterData_cons_none parallel t rules rest onlyTable
              (neuterData parallel rest onlyTable st).1 hsk hlk2]
            exact ih st hnd' hval' hpair'
        | some tbl =>
            rw [neuterData_cons_some parallel t rules rest onlyTable st
              tbl hsk hlk]
            rw [applyRulesP_eff parallel rules tbl hvr]
            dsimp only
            have h1 := ih (aset st t
              ⟨tbl.cols, tbl.rows.map (rowEffs (ruleEffs tbl.cols rules))⟩)
              hnd' hval' hpair'
            refine ⟨h1.1, ?_⟩
            have hlk2 : alookup (neuterData parallel rest onlyTable
                (aset st t ⟨tbl.cols,
                  tbl.rows.map (rowEffs (ruleEffs tbl.cols rules))⟩)).1 t =
                some ⟨tbl.cols,
                  tbl.rows.map (rowEffs (ruleEffs tbl.cols rules))⟩ := by
              rw [neuterData_frame parallel onlyTable rest _ t hnt]
              exact alookup_aset_self st t _
            rw [neuterData_cons_some parallel t rules rest onlyTable
              (neuterData parallel rest onlyTable
                (aset st t ⟨tbl.cols,
                  tbl.rows.map (rowEffs (ruleEffs tbl.cols rules))⟩)).1
              ⟨tbl.cols, tbl.rows.map (rowEffs (ruleEffs tbl.cols rules))⟩
              hsk hlk2]
            rw [applyRulesP_eff parallel rules
              ⟨tbl.cols, tbl.rows.map (rowEffs (ruleEffs tbl.cols rules))⟩
              hvr]
            dsimp only
            rw [tblEff_idem tbl.cols rules hpr tbl.rows]
            rw [aset_self _ t _ hlk2]
            exact h1.2

/-- C4 (counterexample): redaction is *not* idempotent for every mix of
`prefix` and `replace` rules.  Two `prefix` rules on the same column (values
`"a"` and `"b"` on `email`, row value `"z"`) each defeat the other's
`NOT ILIKE value%` guard: the first run produces `"baz"`, the second
`"babaz"`, so the second run changes the destination. -/
theorem neuter_c4_counterexample :
    (neuterData 1
        [("t", [(⟨"email", "prefix", some (.vstr "a"), [], none⟩ : NRule),
                ⟨"email", "prefix", some (.vstr "b"), [], none⟩])] none
        [("t", (⟨[("email", none)],
          [[("email", Value.vstr "z")]]⟩ : NTable))]).2 = none ∧
    (neuterData 1
        [("t", [(⟨"email", "prefix", some (.vstr "a"), [], none⟩ : NRule),
                ⟨"email", "prefix", some (.vstr "b"), [], none⟩])] none
        [("t", (⟨[("email", none)],
          [[("email", Value.vstr "z")]]⟩ : NTable))]).1 =
      [("t", ⟨[("email", none)], [[("email", Value.vstr "baz")]]⟩)] ∧
    neuterData 1
        [("t", [(⟨"email", "prefix", some (.vstr "a"), [], none⟩ : NRule),
                ⟨"email", "prefix", some (.vstr "b"), [], none⟩])] none
        [("t", ⟨[("email", none)], [[("email", Value.vstr "baz")]]⟩)] =
      ([("t", ⟨[("email", none)], [[("email", Value.vstr "babaz")]]⟩)],
        none) := by
  decide

/-- C4 (amended): `neuter_data` is idempotent provided the target table
names are pairwise distinct, every rule's strategy is `prefix` or
`replace`, no rule is sharded, and no two `prefix` rules of one table
target the same column — the run raises nothing and a second run over its
output returns that state unchanged.  (The unconditional claim fails: see
the counterexample with two `prefix` rules on one column.) -/
theorem neuter_c4 (parallel : Int) (onlyTable : Option String)
    (targets : List (String × List NRule)) (st : List (String × NTable))
    (hnd : (targets.map Prod.fst).Nodup)
    (hval : ∀ tr ∈ targets, ∀ r ∈ tr.2,
      (r.strategy = "prefix" ∨ r.strategy = "replace") ∧ r.shard = none)
    (hpair : ∀ tr ∈ targets, tr.2.Pairwise (fun r1 r2 =>
      ¬ (r1.strategy = "prefix" ∧ r2.strategy = "prefix" ∧
         r1.column = r2.column))) :
    (neuterData parallel targets onlyTable st).2 = none ∧
    neuterData parallel targets onlyTable
        (neuterData parallel targets onlyTable st).1 =
      ((neuterData parallel targets onlyTable st).1, none) :=
  neuterData_idem_aux parallel onlyTable targets st hnd hval hpair

/-- C4 witness: a `prefix` rule with a skip pattern and a length-limited
column plus a `replace` rule on another column; the idempotence theorem
applies at this concrete configuration. -/
theorem neuter_c4_witness :
    (neuterData 1
        [("customers",
          [(⟨"email", "prefix", some (.vstr "x"), ["admin%"], none⟩ :
             NRule),
           ⟨"phone", "replace", some (.vstr "555"), [], none⟩])] none
        [("customers", (⟨[("email", some 4), ("phone", none)],
          [[("email", .vstr "bob"), ("phone", .vstr "123")],
           [("email", .vstr "admin9"), ("phone", .vnull)]]⟩ :
            NTable))]).2 = none ∧
    neuterData 1
        [("customers",
          [(⟨"email", "prefix", some (.vstr "x"), ["admin%"], none⟩ :
             NRule),
           ⟨"phone", "replace", some (.vstr "555"), [], none⟩])] none
        (neuterData 1
          [("customers",
            [(⟨"email", "prefix", some (.vstr "x"), ["admin%"], none⟩ :
               NRule),
             ⟨"phone", "replace", some (.vstr "555"), [], none⟩])] none
          [("customers", (⟨[("email", some 4), ("phone", none)],
            [[("email", .vstr "bob"), ("phone", .vstr "123")],
             [("email", .vstr "admin9"), ("phone", .vnull)]]⟩ :
              NTable))]).1 =
      ((neuterData 1
          [("customers",
            [(⟨"email", "prefix", some (.vstr "x"), ["admin%"], none⟩ :
               NRule),
             ⟨"phone", "replace", some (.vstr "555"), [], none⟩])] none
          [("customers", (⟨[("email", some 4), ("phone", none)],
            [[("email", .vstr "bob"), ("phone", .vstr "123")],
             [("email", .vstr "admin9"), ("phone", .vnull)]]⟩ :
              NTable))]).1, none) :=
  neuter_c4 1 none
    [("customers",
      [(⟨"email", "prefix", some (.vstr "x"), ["admin%"], none⟩ : NRule),
       ⟨"phone", "replace", some (.vstr "555"), [], none⟩])]
    [("customers", (⟨[("email", some 4), ("phone", none)],
      [[("email", .vstr "bob"), ("phone", .vstr "123")],
       [("email", .vstr "admin9"), ("phone", .vnull)]]⟩ : NTable))]
    (by decide) (by decide) (by decide)

/-! ## Constraint reconciliation (`dbutil/constraints.py`, claim C7)

A table's constraint catalog: the primary key (name, ordered columns —
`contype 'p'`, handled by `migrate_primary_keys`) and the four maps
reconciled by `mirror_all_constraints` (`u`nique / `c`heck / e`x`clusion /
`f`oreign key, name → `pg_get_constraintdef` text).  Foreign keys carry the
`convalidated` flag: adding a constraint whose text contains `NOT VALID`
leaves it unvalidated, otherwise PostgreSQL validates on add.  The shallow
embedding stores, for a constraint (re)created by the pass, the definition
text handed to `ADD CONSTRAINT` (`_ensure_constraint` succeeding; schema
names are word-like identifiers). -/

/-- Python regex `\w`: ASCII letters, digits, underscore. -/
def isWordChar (ch : Char) : Bool := ch.isAlphanum || ch = '_'

def isWsC (ch : Char) : Bool :=
  ch = ' ' || ch = '\t' || ch = '\n' || ch = '\r'

/-- Split into maximal non-whitespace runs (`cur` holds the reversed
current word). -/
def wordsAux : List Char → List Char → List (List Char)
  | cur, [] => if cur.isEmpty then [] else [cur.reverse]
  | cur, ch :: rest =>
      if isWsC ch then
        if cur.isEmpty then wordsAux [] rest
        else cur.reverse :: wordsAux [] rest
      else wordsAux (ch :: cur) rest

def wordsC (s : List Char) : List (List Char) := wordsAux [] s

/-- Rejoin words with single spaces: the effect of
`re.sub(r"\s+", " ", s.strip())`. -/
def intercalateWs : List (List Char) → List Char
  | [] => []
  | [w] => w
  | w :: r :: rest => w ++ ' ' :: intercalateWs (r :: rest)

def isNOTw (w : List Char) : Bool := w.map Char.toUpper = ['N', 'O', 'T']

/-- Does the word start with `VALID` (case-insensitive) at a `\b`
boundary (end of word, or followed by a non-word character)? -/
def validHeadW (w : List Char) : Bool :=
  ((w.take 5).map Char.toUpper = ['V', 'A', 'L', 'I', 'D']) &&
    (match w.drop 5 with
     | [] => true
     | ch :: _ => !(isWordChar ch))

/-- `re.sub(r"\s+NOT\s+VALID\b", "", d, IGNORECASE)` on a
whitespace-collapsed string, word by word: a `NOT` followed by a
`VALID`-headed word is removed when a previous word exists (the pattern
needs preceding whitespace); a non-empty tail after `VALID` glues onto the
previous word; scanning resumes after the match (no rescan).  `acc` holds
the emitted words reversed. -/
def stripNV : List (List Char) → List (List Char) → List (List Char)
  | acc, [] => acc.reverse
  | [], w1 :: rest => stripNV [w1] rest
  | a :: acc', [w1] => stripNV (w1 :: a :: acc') []
  | a :: acc', w1 :: w2 :: rest' =>
      if isNOTw w1 && validHeadW w2 then
        match w2.drop 5 with
        | [] => stripNV (a :: acc') rest'
        | r => stripNV ((a ++ r) :: acc') rest'
      else stripNV (w1 :: a :: acc') (w2 :: rest')

/-- `_canon`: collapse whitespace and strip; for foreign keys also remove
`NOT VALID`. -/
def canon (isFk : Bool) (s : String) : String :=
  String.mk (intercalateWs
    (if isFk then stripNV [] (wordsC s.data) else wordsC s.data))

/-- `'NOT VALID' in d.upper()`. -/
def containsNV (s : String) : Bool :=
  (s.data.map Char.toUpper).tails.any
    (fun t => List.isPrefixOf ['N', 'O', 'T', ' ', 'V', 'A', 'L', 'I', 'D'] t)

/-- `re.sub(rf'\b{src_schema}\.', f'{dst_schema}.', defn)`: every
occurrence of `src_schema.` at a word boundary (previous character absent
or non-word) becomes `dst_schema.`; scanning resumes after the match. -/
def rewriteSAux (pat rep : List Char) : Nat → Option Char → List Char →
    List Char
  | 0, _, s => s
  | _ + 1, _, [] => []
  | fuel + 1, prev, ch :: rest =>
      if (match prev with
          | some p => !(isWordChar p)
          | none => true) && List.isPrefixOf pat (ch :: rest) then
        rep ++ rewriteSAux pat rep fuel (some '.')
          ((ch :: rest).drop pat.length)
      else ch :: rewriteSAux pat rep fuel (some ch) rest

def rewriteS (srcS dstS : String) (s : String) : String :=
  String.mk (rewriteSAux (srcS.data ++ ['.']) (dstS.data ++ ['.'])
    s.data.length none s.data)

/-- `[A-Za-z_][\w$]*`. -/
def parseIdent (s : List Char) : Option (List Char × List Char) :=
  match s with
  | ch :: rest =>
      if ch.isAlpha || ch = '_' then
        let tl := rest.takeWhile (fun d => isWordChar d || d = '$')
        some (ch :: tl, rest.drop tl.length)
      else none
  | [] => none

/-- Consume an optional double quote. -/
def skipQuote (s : List Char) : List Char :=
  match s with
  | '"' :: rest => rest
  | s => s

/-- Try `(?:\"?ident\"?\.)` at `s`. -/
def parseSchemaPart (s : List Char) : Option (List Char) :=
  match parseIdent (skipQuote s) with
  | some (_, r1) =>
      match skipQuote r1 with
      | '.' :: r2 => some r2
      | _ => none
  | none => none

/-- Try `\"?([A-Za-z_][\w$]*)\"?` at `s`: the captured table name and the
remainder. -/
def parseRefTable (s : List Char) : Option (List Char × List Char) :=
  match parseIdent (skipQuote s) with
  | some (id, r1) => some (id, skipQuote r1)
  | none => none

/-- Try the `_qualify_fk` pattern at the start of `s`:
`(REFERENCES\s+)(?:\"?ident\"?\.)?\"?(ident)\"?` (IGNORECASE), replaced by
`\1"dst_schema"."\2"`; the optional schema group backtracks when the table
part cannot follow it. -/
def qualifyAt (dstS : String) (s : List Char) : Option (List Char) :=
  if (s.take 10).map Char.toUpper =
      ['R', 'E', 'F', 'E', 'R', 'E', 'N', 'C', 'E', 'S'] then
    let rest0 := s.drop 10
    let wsp := rest0.takeWhile isWsC
    if wsp.isEmpty then none
    else
      let rest1 := rest0.drop wsp.length
      let grp1 := s.take 10 ++ wsp
      let rep := fun (id : List Char) (r : List Char) =>
        grp1 ++ '"' :: dstS.data ++ '"' :: '.' :: '"' :: id ++ '"' :: r
      match parseSchemaPart rest1 with
      | some r2 =>
          match parseRefTable r2 with
          | some (id, r3) => some (rep id r3)
          | none =>
              match parseRefTable rest1 with
              | some (id, r3) => some (rep id r3)
              | none => none
      | none =>
          match parseRefTable rest1 with
          | some (id, r3) => some (rep id r3)
          | none => none
  else none

/-- `_qualify_fk`: rewrite the first `REFERENCES [schema.]table` to
`REFERENCES "dst_schema"."table"` (`count=1`). -/
def qualifyFkAux (dstS : String) : Nat → List Char → List Char
  | _, [] => []
  | 0, s => s
  | fuel + 1, ch :: rest =>
      match qualifyAt dstS (ch :: rest) with
      | some out => out
      | none => ch :: qualifyFkAux dstS fuel rest

def qualifyFk (dstS : String) (s : String) : String :=
  String.mk (qualifyFkAux dstS s.data.length s.data)

structure FkCon where
  defn : String
  validated : Bool
  deriving DecidableEq, Repr

/-- A table's constraint catalog (`pg_constraint` partitioned by kind). -/
structure CTable where
  pk : Option (String × List String)
  u : List (String × String)
  c : List (String × String)
  x : List (String × String)
  f : List (String × FkCon)
  deriving DecidableEq, Repr

/-- Every constraint name present on the table. -/
def ctableNames (tbl : CTable) : List String :=
  (match tbl.pk with
   | some p => [p.1]
   | none => []) ++
    tbl.u.map Prod.fst ++ tbl.c.map Prod.fst ++ tbl.x.map Prod.fst ++
    tbl.f.map Prod.fst

/-- `migrate_primary_keys` on one table: skip when the destination already
has a primary key, otherwise attach the source's (same name and column
order); no other constraint kind is touched. -/
def pkAdjust (stbl dtbl : CTable) : CTable :=
  if dtbl.pk.isSome then dtbl
  else
    match stbl.pk with
    | none => dtbl
    | some p => { dtbl with pk := some p }

def mpkStep (acc : List (String × CTable)) (tp : String × CTable) :
    List (String × CTable) :=
  match alookup acc tp.1 with
  | none => acc
  | some dtbl => aset acc tp.1 (pkAdjust tp.2 dtbl)

def migratePrimaryKeys (src dst : List (String × CTable)) :
    List (String × CTable) :=
  src.foldl mpkStep dst

/-- Reconciliation of one non-FK kind (`u`/`c`/`x`): a destination
constraint with the source's name and equal canonical form is kept; on a
mismatch it is dropped and the schema-rewritten source definition is added;
a missing one is added; destination-only names are dropped (the result is
keyed by the source names). -/
def reconNF1 (srcS dstS : String) (dstDefs : List (String × String))
    (p : String × String) : String × String :=
  match alookup dstDefs p.1 with
  | some dd =>
      if canon false dd = canon false (rewriteS srcS dstS p.2) then
        (p.1, dd)
      else (p.1, rewriteS srcS dstS p.2)
  | none => (p.1, rewriteS srcS dstS p.2)

def reconcileNF (srcS dstS : String) (srcDefs dstDefs :
    List (String × String)) : List (String × String) :=
  srcDefs.map (reconNF1 srcS dstS dstDefs)

/-- Reconciliation of the FK kind.  Canonical comparison uses the
schema-rewritten, `REFERENCES`-qualified source text.  On a mismatch the
rebuilt text is rewrite → qualify → append `NOT VALID` (when absent); on a
missing name it is rewrite → append `NOT VALID` (when absent) → qualify
(the source's order in the two branches).  A constraint added with
`NOT VALID` has `convalidated = false`. -/
def reconFK1 (srcS dstS : String) (dstDefs : List (String × FkCon))
    (p : String × FkCon) : String × FkCon :=
  match alookup dstDefs p.1 with
  | some dc =>
      if canon true dc.defn =
          canon true (qualifyFk dstS (rewriteS srcS dstS p.2.defn)) then
        (p.1, dc)
      else
        let d1 := qualifyFk dstS (rewriteS srcS dstS p.2.defn)
        let d2 := if containsNV d1 then d1 else d1 ++ " NOT VALID"
        (p.1, ⟨d2, !(containsNV d2)⟩)
  | none =>
      let d0 := rewriteS srcS dstS p.2.defn
      let d1 := if containsNV d0 then d0 else d0 ++ " NOT VALID"
      let d2 := qualifyFk dstS d1
      (p.1, ⟨d2, !(containsNV d2)⟩)

def reconcileFK (srcS dstS : String) (srcDefs : List (String × FkCon))
    (dstDefs : List (String × FkCon)) : List (String × FkCon) :=
  srcDefs.map (reconFK1 srcS dstS dstDefs)

/-- The FK validation step for one table: when enabled and the table is
allowed, every unvalidated destination FK is `VALIDATE CONSTRAINT`-ed. -/
def validatePass (vfk : Bool) (vtbls : Option (List String)) (tbl : String)
    (m : List (String × FkCon)) : List (String × FkCon) :=
  if vfk && (match vtbls with
             | none => true
             | some l => decide (tbl ∈ l)) then
    m.map (fun p => (p.1, ⟨p.2.defn, true⟩))
  else m

/-- The reconciled catalog of one table (primary key untouched here). -/
def mirrorTable (srcS dstS : String) (vfk : Bool)
    (vtbls : Option (List String)) (t : String) (stbl dtbl : CTable) :
    CTable :=
  { pk := dtbl.pk
    u := reconcileNF srcS dstS stbl.u dtbl.u
    c := reconcileNF srcS dstS stbl.c dtbl.c
    x := reconcileNF srcS dstS stbl.x dtbl.x
    f := validatePass vfk vtbls t (reconcileFK srcS dstS stbl.f dtbl.f) }

/-- One iteration of the `mirror_all_constraints` table loop. -/
def mirrorStep (srcS dstS : String) (onlyTables : Option (List String))
    (vfk : Bool) (vtbls : Option (List String))
    (acc : List (String × CTable)) (tp : String × CTable) :
    List (String × CTable) :=
  if (match onlyTables with
      | some l => decide (tp.1 ∉ l)
      | none => false) then acc
  else
    match alookup acc tp.1 with
    | none => acc
    | some dtbl =>
        aset acc tp.1 (mirrorTable srcS dstS vfk vtbls tp.1 tp.2 dtbl)

/-- `mirror_all_constraints`: primary keys first, then the per-table
reconciliation (with per-table FK validation) over the source tables. -/
def mirrorAllConstraints (srcS dstS : String)
    (onlyTables : Option (List String)) (vfk : Bool)
    (vtbls : Option (List String)) (src dst : List (String × CTable)) :
    List (String × CTable) :=
  src.foldl (mirrorStep srcS dstS onlyTables vfk vtbls)
    (migratePrimaryKeys src dst)

theorem wordsAux_append_space (b : List Char) :
    ∀ (a cur : List Char),
      wordsAux cur (a ++ ' ' :: b) = wordsAux cur a ++ wordsAux [] b := by
  intro a
  induction a with
  | nil =>
      intro cur
      cases cur <;> rfl
  | cons ch a' ih =>
      intro cur
      simp only [List.cons_append, wordsAux, List.append_eq]
      by_cases hws : isWsC ch
      · rw [if_pos hws, if_pos hws]
        by_cases hcur : cur.isEmpty
        · rw [if_pos hcur, if_pos hcur]
          exact ih []
        · rw [if_neg hcur, if_neg hcur, ih [], List.cons_append]
      · rw [if_neg hws, if_neg hws]
        exact ih (ch :: cur)

theorem validHeadW_notw : validHeadW ['N', 'O', 'T'] = false := by decide

theorem isNOTw_notw : isNOTw ['N', 'O', 'T'] = true := by decide

theorem validHeadW_validw : validHeadW ['V', 'A', 'L', 'I', 'D'] = true := by
  decide

theorem stripNV_append_nv :
    ∀ (n : Nat) (ws acc : List (List Char)), ws.length ≤ n →
      (acc = [] → ws ≠ []) →
      stripNV acc (ws ++ [['N', 'O', 'T'], ['V', 'A', 'L', 'I', 'D']]) =
        stripNV acc ws := by
  intro n
  induction n with
  | zero =>
      intro ws acc hlen hne
      have hnil : ws = [] := List.length_eq_zero.mp (Nat.le_zero.mp hlen)
      subst hnil
      cases acc with
      | nil => exact absurd rfl (hne rfl)
      | cons a acc' => rfl
  | succ n ih =>
      intro ws acc hlen hne
      cases ws with
      | nil =>
          cases acc with
          | nil => exact absurd rfl (hne rfl)
          | cons a acc' => rfl
      | cons w1 rest =>
          cases rest with
          | nil =>
              cases acc with
              | nil =>
                  show stripNV [w1] [['N', 'O', 'T'],
                    ['V', 'A', 'L', 'I', 'D']] = stripNV [w1] []
                  cases hn1 : isNOTw w1 <;>
                    simp [stripNV, hn1, validHeadW_notw, isNOTw_notw,
                      validHeadW_validw]
              | cons a acc' =>
                  show stripNV (a :: acc') (w1 :: [['N', 'O', 'T'],
                    ['V', 'A', 'L', 'I', 'D']]) = stripNV (a :: acc') [w1]
                  cases hn1 : isNOTw w1 <;>
                    simp [stripNV, hn1, validHeadW_notw, isNOTw_notw,
                      validHeadW_validw]
          | cons w2 rest' =>
              cases acc with
              | nil =>
                  show stripNV [w1] ((w2 :: rest') ++
                      [['N', 'O', 'T'], ['V', 'A', 'L', 'I', 'D']]) =
                    stripNV [w1] (w2 :: rest')
                  refine ih (w2 :: rest') [w1] ?_ (fun h => by cases h)
                  simpa using Nat.le_of_succ_le_succ hlen
              | cons a acc' =>
                  have hlen' : rest'.length + 1 ≤ n := by
                    simpa using Nat.le_of_succ_le_succ hlen
                  by_cases htest : (isNOTw w1 && validHeadW w2) = true
                  · cases hdrop : w2.drop 5 with
                    | nil =>
                        have hL : stripNV (a :: acc')
                            ((w1 :: w2 :: rest') ++ [['N', 'O', 'T'],
                              ['V', 'A', 'L', 'I', 'D']]) =
                            stripNV (a :: acc') (rest' ++ [['N', 'O', 'T'],
                              ['V', 'A', 'L', 'I', 'D']]) := by
                          simp [stripNV, htest, hdrop]
                        have hR : stripNV (a :: acc')
                            (w1 :: w2 :: rest') =
                            stripNV (a :: acc') rest' := by
                          simp [stripNV, htest, hdrop]
                        rw [hL, hR]
                        exact ih rest' (a :: acc')
                          (Nat.le_of_succ_le hlen') (fun h => by cases h)
                    | cons r rs =>
                        have hL : stripNV (a :: acc')
                            ((w1 :: w2 :: rest') ++ [['N', 'O', 'T'],
                              ['V', 'A', 'L', 'I', 'D']]) =
                            stripNV ((a ++ (r :: rs)) :: acc')
                              (rest' ++ [['N', 'O', 'T'],
                                ['V', 'A', 'L', 'I', 'D']]) := by
                          simp [stripNV, htest, hdrop]
                        have hR : stripNV (a :: acc')
                            (w1 :: w2 :: rest') =
                            stripNV ((a ++ (r :: rs)) :: acc') rest' := by
                          simp [stripNV, htest, hdrop]
                        rw [hL, hR]
                        exact ih rest' ((a ++ (r :: rs)) :: acc')
                          (Nat.le_of_succ_le hlen') (fun h => by cases h)
                  · have hL : stripNV (a :: acc')
                        ((w1 :: w2 :: rest') ++ [['N', 'O', 'T'],
                          ['V', 'A', 'L', 'I', 'D']]) =
                        stripNV (w1 :: a :: acc')
                          ((w2 :: rest') ++ [['N', 'O', 'T'],
                            ['V', 'A', 'L', 'I', 'D']]) := by
                      simp [stripNV, htest]
                    have hR : stripNV (a :: acc') (w1 :: w2 :: rest') =
                        stripNV (w1 :: a :: acc') (w2 :: rest') := by
                      simp [stripNV, htest]
                    rw [hL, hR]
                    exact ih (w2 :: rest') (w1 :: a :: acc') hlen'
                      (fun h => by cases h)

/-- Appending ` NOT VALID` to a definition with at least one word does not
change its foreign-key canonical form. -/
theorem canon_append_nv (x : String) (hw : wordsC x.data ≠ []) :
    canon true (x ++ " NOT VALID") = canon true x := by
  have hdata : (x ++ " NOT VALID").data =
      x.data ++ ' ' :: ['N', 'O', 'T', ' ', 'V', 'A', 'L', 'I', 'D'] := rfl
  have hnv : wordsAux ([] : List Char)
      ['N', 'O', 'T', ' ', 'V', 'A', 'L', 'I', 'D'] =
      [['N', 'O', 'T'], ['V', 'A', 'L', 'I', 'D']] := by decide
  have hwords : wordsC (x ++ " NOT VALID").data =
      wordsC x.data ++ [['N', 'O', 'T'], ['V', 'A', 'L', 'I', 'D']] := by
    rw [hdata]
    show wordsAux [] (x.data ++ ' ' :: _) = _
    rw [wordsAux_append_space _ x.data [], hnv]
    rfl
  unfold canon
  rw [hwords, stripNV_append_nv (wordsC x.data).length (wordsC x.data) []
    (Nat.le_refl _) (fun _ => hw)]
  rfl

theorem alookup_cons {α : Type} (p : String × α)
    (rest : List (String × α)) (n : String) :
    alookup (p :: rest) n =
      if p.1 = n then some p.2 else alookup rest n := by
  obtain ⟨k, v⟩ := p
  rfl

/-- Looking up through a key-preserving map. -/
theorem alookup_map_keyfix {α β : Type} (f : String × α → String × β)
    (hf : ∀ p, (f p).1 = p.1) :
    ∀ (m : List (String × α)) (n : String) (v : α),
      alookup m n = some v →
      ∃ p, p ∈ m ∧ p.1 = n ∧ p.2 = v ∧
        alookup (m.map f) n = some (f p).2 := by
  intro m
  induction m with
  | nil => intro n v h; cases h
  | cons q rest ih =>
      intro n v h
      rw [alookup_cons] at h
      rw [List.map_cons, alookup_cons]
      by_cases hk : q.1 = n
      · refine ⟨q, List.mem_cons_self q rest, hk, Option.some.inj ?_, ?_⟩
        · rw [if_pos hk] at h; exact h
        · rw [if_pos (by rw [hf q, hk])]
      · rw [if_neg hk] at h
        obtain ⟨p, hp, hp1, hp2, hl⟩ := ih n v h
        exact ⟨p, List.mem_cons_of_mem q hp, hp1, hp2, by
          rw [if_neg (by rw [hf q]; exact hk), hl]⟩

theorem reconNF1_fst (srcS dstS : String)
    (dstDefs : List (String × String)) (p : String × String) :
    (reconNF1 srcS dstS dstDefs p).1 = p.1 := by
  unfold reconNF1
  repeat' split
  all_goals rfl

theorem reconFK1_fst (srcS dstS : String)
    (dstDefs : List (String × FkCon)) (p : String × FkCon) :
    (reconFK1 srcS dstS dstDefs p).1 = p.1 := by
  unfold reconFK1
  repeat' split
  all_goals rfl

/-- Non-FK reconciliation: every source-named constraint ends with the
canonical form of the schema-rewritten source definition. -/
theorem reconcileNF_spec (srcS dstS : String)
    (srcDefs dstDefs : List (String × String)) (n d : String)
    (h : alookup srcDefs n = some d) :
    ∃ dd, alookup (reconcileNF srcS dstS srcDefs dstDefs) n = some dd ∧
      canon false dd = canon false (rewriteS srcS dstS d) := by
  obtain ⟨p, _, hp1, hp2, hl⟩ :=
    alookup_map_keyfix (reconNF1 srcS dstS dstDefs)
      (reconNF1_fst srcS dstS dstDefs) srcDefs n d h
  refine ⟨(reconNF1 srcS dstS dstDefs p).2, hl, ?_⟩
  unfold reconNF1
  rw [hp1, hp2]
  cases hdd : alookup dstDefs n with
  | none => rfl
  | some dd0 =>
      dsimp only
      by_cases hcanon : canon false dd0 =
          canon false (rewriteS srcS dstS d)
      · rw [if_pos hcanon]
        exact hcanon
      · rw [if_neg hcanon]

/-- FK reconciliation: every source-named FK ends with the canonical form
of the schema-rewritten, `REFERENCES`-qualified source definition.
`hq` is the (true for word-like schema names) commutation of the first
`REFERENCES` rewrite with the trailing ` NOT VALID` of the create branch;
`hw` says the compared text has at least one word. -/
theorem reconcileFK_spec (srcS dstS : String)
    (srcDefs dstDefs : List (String × FkCon)) (n : String) (fc : FkCon)
    (h : alookup srcDefs n = some fc)
    (hw : wordsC (qualifyFk dstS (rewriteS srcS dstS fc.defn)).data ≠ [])
    (hq : containsNV (rewriteS srcS dstS fc.defn) = false →
      qualifyFk dstS (rewriteS srcS dstS fc.defn ++ " NOT VALID") =
        qualifyFk dstS (rewriteS srcS dstS fc.defn) ++ " NOT VALID") :
    ∃ fc', alookup (reconcileFK srcS dstS srcDefs dstDefs) n = some fc' ∧
      canon true fc'.defn =
        canon true (qualifyFk dstS (rewriteS srcS dstS fc.defn)) := by
  obtain ⟨p, _, hp1, hp2, hl⟩ :=
    alookup_map_keyfix (reconFK1 srcS dstS dstDefs)
      (reconFK1_fst srcS dstS dstDefs) srcDefs n fc h
  refine ⟨(reconFK1 srcS dstS dstDefs p).2, hl, ?_⟩
  unfold reconFK1
  rw [hp1, hp2]
  cases hdd : alookup dstDefs n with
  | some dc =>
      dsimp only
      by_cases hcanon : canon true dc.defn =
          canon true (qualifyFk dstS (rewriteS srcS dstS fc.defn))
      · rw [if_pos hcanon]
        exact hcanon
      · rw [if_neg hcanon]
        dsimp only
        by_cases hnv : containsNV
            (qualifyFk dstS (rewriteS srcS dstS fc.defn)) = true
        · rw [if_pos hnv]
        · rw [if_neg hnv]
          exact canon_append_nv _ hw
  | none =>
      dsimp only
      by_cases hnv0 : containsNV (rewriteS srcS dstS fc.defn) = true
      · rw [if_pos hnv0]
      · rw [if_neg hnv0]
        have hnv0' : containsNV (rewriteS srcS dstS fc.defn) = false := by
          revert hnv0
          cases containsNV (rewriteS srcS dstS fc.defn) <;> simp
        rw [hq hnv0']
        exact canon_append_nv _ hw

theorem validatePass_true (t : String) (m : List (String × FkCon)) :
    validatePass true none t m =
      m.map (fun p => (p.1, ⟨p.2.defn, true⟩)) := rfl

theorem pkAdjust_u (s d : CTable) : (pkAdjust s d).u = d.u := by
  unfold pkAdjust
  split
  · rfl
  · split <;> rfl

theorem pkAdjust_c (s d : CTable) : (pkAdjust s d).c = d.c := by
  unfold pkAdjust
  split
  · rfl
  · split <;> rfl

theorem pkAdjust_x (s d : CTable) : (pkAdjust s d).x = d.x := by
  unfold pkAdjust
  split
  · rfl
  · split <;> rfl

theorem pkAdjust_f (s d : CTable) : (pkAdjust s d).f = d.f := by
  unfold pkAdjust
  split
  · rfl
  · split <;> rfl

theorem pkAdjust_pk_none (s d : CTable) (h : d.pk = none) :
    (pkAdjust s d).pk = s.pk := by
  unfold pkAdjust
  rw [h]
  cases hs : s.pk with
  | none => exact h
  | some p => rfl

theorem mpkFold_frame :
    ∀ (l : List (String × CTable)) (acc : List (String × CTable))
      (n : String), n ∉ l.map Prod.fst →
      alookup (l.foldl mpkStep acc) n = alookup acc n := by
  intro l
  induction l with
  | nil => intro acc n _; rfl
  | cons tp rest ih =>
      intro acc n hn
      rw [List.map_cons, List.mem_cons] at hn
      push_neg at hn
      rw [List.foldl_cons, ih _ n hn.2]
      unfold mpkStep
      cases hlk : alookup acc tp.1 with
      | none => rfl
      | some dtbl => exact alookup_aset_other acc tp.1 n _ hn.1

theorem mpk_at :
    ∀ (src acc : List (String × CTable)) (t : String) (stbl dtbl : CTable),
      (src.map Prod.fst).Nodup → (t, stbl) ∈ src →
      alookup acc t = some dtbl →
      alookup (src.foldl mpkStep acc) t = some (pkAdjust stbl dtbl) := by
  intro src
  induction src with
  | nil => intro acc t stbl dtbl _ hmem _; cases hmem
  | cons tp rest ih =>
      intro acc t stbl dtbl hnd hmem hacc
      rw [List.map_cons, List.nodup_cons] at hnd
      rw [List.foldl_cons]
      rcases List.mem_cons.mp hmem with heq | hmem'
      · have hstep : mpkStep acc tp = aset acc t (pkAdjust stbl dtbl) := by
          rw [← heq]
          unfold mpkStep
          rw [hacc]
        rw [hstep, mpkFold_frame rest _ t (by rw [← heq] at hnd; exact hnd.1)]
        exact alookup_aset_self acc t _
      · have hne : tp.1 ≠ t := fun h =>
          hnd.1 (h ▸ List.mem_map.mpr ⟨(t, stbl), hmem', rfl⟩)
        have hacc' : alookup (mpkStep acc tp) t = some dtbl := by
          unfold mpkStep
          cases hlk : alookup acc tp.1 with
          | none => exact hacc
          | some d0 =>
              rw [alookup_aset_other acc tp.1 t _ (Ne.symm hne)]
              exact hacc
        exact ih (mpkStep acc tp) t stbl dtbl hnd.2 hmem' hacc'

theorem mirrorFold_frame (srcS dstS : String) (vfk : Bool)
    (vtbls : Option (List String)) :
    ∀ (l : List (String × CTable)) (acc : List (String × CTable))
      (n : String), n ∉ l.map Prod.fst →
      alookup (l.foldl (mirrorStep srcS dstS none vfk vtbls) acc) n =
        alookup acc n := by
  intro l
  induction l with
  | nil => intro acc n _; rfl
  | cons tp rest ih =>
      intro acc n hn
      rw [List.map_cons, List.mem_cons] at hn
      push_neg at hn
      rw [List.foldl_cons, ih _ n hn.2]
      unfold mirrorStep
      cases hlk : alookup acc tp.1 with
      | none => rfl
      | some dtbl => exact alookup_aset_other acc tp.1 n _ hn.1

theorem mirror_at (srcS dstS : String) (vfk : Bool)
    (vtbls : Option (List String)) :
    ∀ (src acc : List (String × CTable)) (t : String) (stbl dtbl : CTable),
      (src.map Prod.fst).Nodup → (t, stbl) ∈ src →
      alookup acc t = some dtbl →
      alookup (src.foldl (mirrorStep srcS dstS none vfk vtbls) acc) t =
        some (mirrorTable srcS dstS vfk vtbls t stbl dtbl) := by
  intro src
  induction src with
  | nil => intro acc t stbl dtbl _ hmem _; cases hmem
  | cons tp rest ih =>
      intro acc t stbl dtbl hnd hmem hacc
      rw [List.map_cons, List.nodup_cons] at hnd
      rw [List.foldl_cons]
      rcases List.mem_cons.mp hmem with heq | hmem'
      · have hstep : mirrorStep srcS dstS none vfk vtbls acc tp =
            aset acc t (mirrorTable srcS dstS vfk vtbls t stbl dtbl) := by
          rw [← heq]
          unfold mirrorStep
          rw [hacc]
          rfl
        rw [hstep,
          mirrorFold_frame srcS dstS vfk vtbls rest _ t
            (by rw [← heq] at hnd; exact hnd.1)]
        exact alookup_aset_self acc t _
      · have hne : tp.1 ≠ t := fun h =>
          hnd.1 (h ▸ List.mem_map.mpr ⟨(t, stbl), hmem', rfl⟩)
        have hacc' : alookup (mirrorStep srcS dstS none vfk vtbls acc tp)
            t = some dtbl := by
          unfold mirrorStep
          cases hlk : alookup acc tp.1 with
          | none => exact hacc
          | some d0 =>
              exact (alookup_aset_other acc tp.1 t
                (mirrorTable srcS dstS vfk vtbls tp.1 tp.2 d0)
                (Ne.symm hne)).trans hacc
        exact ih _ t stbl dtbl hnd.2 hmem' hacc'

theorem alookup_mem {α : Type} :
    ∀ (m : List (String × α)) (n : String) (v : α),
      alookup m n = some v → (n, v) ∈ m := by
  intro m
  induction m with
  | nil => intro n v h; cases h
  | cons p rest ih =>
      intro n v h
      rw [alookup_cons] at h
      by_cases hk : p.1 = n
      · rw [if_pos hk] at h
        have hp : p = (n, v) := Prod.ext hk (Option.some.inj h)
        exact hp ▸ List.mem_cons_self p rest
      · rw [if_neg hk] at h
        exact List.mem_cons_of_mem p (ih n v h)

/-- C7 (counterexample): the unrestricted claim fails for primary keys.
`migrate_primary_keys` skips a table whose destination already has a
primary key, so a source pk name (`src_pkey`) need never appear on the
destination table (which keeps its own `dst_pkey`). -/
theorem constraints_c7_counterexample :
    ("src_pkey" ∈ ctableNames
      ⟨some ("src_pkey", ["id"]), [], [], [], []⟩) ∧
    (alookup (mirrorAllConstraints "public" "stage" none true none
        [("t", ⟨some ("src_pkey", ["id"]), [], [], [], []⟩)]
        [("t", ⟨some ("dst_pkey", ["id"]), [], [], [], []⟩)]) "t" =
      some ⟨some ("dst_pkey", ["id"]), [], [], [], []⟩) ∧
    ¬ ("src_pkey" ∈ ctableNames
      ⟨some ("dst_pkey", ["id"]), [], [], [], []⟩) := by
  decide

/-- C7 (amended): after `mirror_all_constraints` over a source table that
also exists in the destination (distinct source table names, no
`only_tables` restriction, FK validation on), every source constraint of
the four reconciled kinds (`u`/`c`/`x`/`f`) exists identically named on the
destination with equal canonical form (whitespace collapsed, source-schema
qualifiers rewritten, `NOT VALID` stripped and `REFERENCES` re-qualified
for foreign keys), and every destination foreign key of the table is
validated.  The source primary-key name is mirrored only when the
destination table had no primary key — with a differently-named
destination primary key the unrestricted claim fails.  `hw`/`hq` are
decidable side conditions on the FK texts (non-empty word list; the first
`REFERENCES` rewrite commutes with a trailing ` NOT VALID`), true for
SQL-shaped definitions. -/
theorem constraints_c7 (srcS dstS : String)
    (src dst : List (String × CTable)) (t : String) (stbl dtbl : CTable)
    (hnd : (src.map Prod.fst).Nodup)
    (hmem : (t, stbl) ∈ src)
    (hdst : alookup dst t = some dtbl)
    (hw : ∀ p ∈ stbl.f,
      wordsC (qualifyFk dstS (rewriteS srcS dstS p.2.defn)).data ≠ [])
    (hq : ∀ p ∈ stbl.f,
      containsNV (rewriteS srcS dstS p.2.defn) = false →
      qualifyFk dstS (rewriteS srcS dstS p.2.defn ++ " NOT VALID") =
        qualifyFk dstS (rewriteS srcS dstS p.2.defn) ++ " NOT VALID") :
    ∃ dtbl',
      alookup (mirrorAllConstraints srcS dstS none true none src dst) t =
        some dtbl' ∧
      (∀ n d, alookup stbl.u n = some d → ∃ dd,
        alookup dtbl'.u n = some dd ∧
        canon false dd = canon false (rewriteS srcS dstS d)) ∧
      (∀ n d, alookup stbl.c n = some d → ∃ dd,
        alookup dtbl'.c n = some dd ∧
        canon false dd = canon false (rewriteS srcS dstS d)) ∧
      (∀ n d, alookup stbl.x n = some d → ∃ dd,
        alookup dtbl'.x n = some dd ∧
        canon false dd = canon false (rewriteS srcS dstS d)) ∧
      (∀ n fc, alookup stbl.f n = some fc → ∃ fc',
        alookup dtbl'.f n = some fc' ∧
        canon true fc'.defn =
          canon true (qualifyFk dstS (rewriteS srcS dstS fc.defn)) ∧
        fc'.validated = true) ∧
      (∀ p ∈ dtbl'.f, p.2.validated = true) ∧
      (dtbl.pk = none → dtbl'.pk = stbl.pk) := by
  have hmpk : alookup (migratePrimaryKeys src dst) t =
      some (pkAdjust stbl dtbl) :=
    mpk_at src dst t stbl dtbl hnd hmem hdst
  have hfin : alookup (mirrorAllConstraints srcS dstS none true none src
      dst) t = some (mirrorTable srcS dstS true none t stbl
        (pkAdjust stbl dtbl)) :=
    mirror_at srcS dstS true none src (migratePrimaryKeys src dst) t stbl
      (pkAdjust stbl dtbl) hnd hmem hmpk
  refine ⟨_, hfin, ?_, ?_, ?_, ?_, ?_, ?_⟩
  · intro n d h
    exact reconcileNF_spec srcS dstS stbl.u (pkAdjust stbl dtbl).u n d h
  · intro n d h
    exact reconcileNF_spec srcS dstS stbl.c (pkAdjust stbl dtbl).c n d h
  · intro n d h
    exact reconcileNF_spec srcS dstS stbl.x (pkAdjust stbl dtbl).x n d h
  · intro n fc h
    have hpm : (n, fc) ∈ stbl.f := alookup_mem stbl.f n fc h
    obtain ⟨fc'', hfk, hcanon⟩ := reconcileFK_spec srcS dstS stbl.f
      (pkAdjust stbl dtbl).f n fc h (hw (n, fc) hpm) (hq (n, fc) hpm)
    refine ⟨⟨fc''.defn, true⟩, ?_, hcanon, rfl⟩
    show alookup (validatePass true none t (reconcileFK srcS dstS stbl.f
      (pkAdjust stbl dtbl).f)) n = some ⟨fc''.defn, true⟩
    rw [validatePass_true]
    obtain ⟨p, _, hp1, hp2, hl⟩ := alookup_map_keyfix
      (fun p => (p.1, (⟨p.2.defn, true⟩ : FkCon))) (fun p => rfl)
      (reconcileFK srcS dstS stbl.f (pkAdjust stbl dtbl).f) n fc'' hfk
    rw [hl, hp2]
  · intro p hp
    have hp' : p ∈ (reconcileFK srcS dstS stbl.f
        (pkAdjust stbl dtbl).f).map
        (fun q => (q.1, (⟨q.2.defn, true⟩ : FkCon))) := hp
    obtain ⟨q, _, hq'⟩ := List.mem_map.mp hp'
    rw [← hq']
  · intro hpk
    show (pkAdjust stbl dtbl).pk = stbl.pk
    exact pkAdjust_pk_none stbl dtbl hpk

def c7WitSrcTbl : CTable :=
  ⟨some ("t_pkey", ["id"]),
   [("t_key", "UNIQUE (a)")],
   [("t_chk", "CHECK ((a > 0))")],
   [],
   [("t_fk", ⟨"FOREIGN KEY (a) REFERENCES public.p(id)", true⟩)]⟩

def c7WitDstTbl : CTable :=
  ⟨none,
   [("t_key", "UNIQUE  (a)")],
   [],
   [],
   [("old_fk", ⟨"FOREIGN KEY (b) REFERENCES q(id)", true⟩)]⟩

/-- C7 witness: a table with a unique, a check and a foreign-key
constraint (the destination copy drifted), destination without a primary
key; the amended mirroring theorem applies at this configuration. -/
theorem constraints_c7_witness :
    ∃ dtbl',
      alookup (mirrorAllConstraints "public" "stage" none true none
        [("t", c7WitSrcTbl)] [("t", c7WitDstTbl)]) "t" = some dtbl' ∧
      (∀ n d, alookup c7WitSrcTbl.u n = some d → ∃ dd,
        alookup dtbl'.u n = some dd ∧
        canon false dd = canon false (rewriteS "public" "stage" d)) ∧
      (∀ n d, alookup c7WitSrcTbl.c n = some d → ∃ dd,
        alookup dtbl'.c n = some dd ∧
        canon false dd = canon false (rewriteS "public" "stage" d)) ∧
      (∀ n d, alookup c7WitSrcTbl.x n = some d → ∃ dd,
        alookup dtbl'.x n = some dd ∧
        canon false dd = canon false (rewriteS "public" "stage" d)) ∧
      (∀ n fc, alookup c7WitSrcTbl.f n = some fc → ∃ fc',
        alookup dtbl'.f n = some fc' ∧
        canon true fc'.defn = canon true
          (qualifyFk "stage" (rewriteS "public" "stage" fc.defn)) ∧
        fc'.validated = true) ∧
      (∀ p ∈ dtbl'.f, p.2.validated = true) ∧
      (c7WitDstTbl.pk = none → dtbl'.pk = c7WitSrcTbl.pk) :=
  constraints_c7 "public" "stage" [("t", c7WitSrcTbl)]
    [("t", c7WitDstTbl)] "t" c7WitSrcTbl c7WitDstTbl
    (by decide) (by decide) (by decide) (by decide) (by decide)

end Dbslice
